import Mathlib

/-!
# Verification of the `cdb_benchmark` coin-name index and ingest pipeline

This file is a shallow embedding, in Lean 4, of the core of the
`cdb_benchmark` repository: the hash primitives of `cdb/schema.py`, the
coinbase codec and block/coin relational store of
`cdb/schemas/hash_db_schema.py`, the sorted-row-file forest of
`cdb/hashdb/row_array_db.py` (with the n-way merge of
`cdb/row_array_storage.py`), and the block-ingest pipeline
(`accept_block` / `flush` / `_store_block` / `blocks`).

Modelling conventions:

* A 32-byte value (`bytes32`) is modelled as a natural number below `2 ^ 256`;
  big-endian lexicographic comparison of equal-length byte strings coincides
  with numeric comparison, and Python slicing of such a value becomes `/` and
  `%` by powers of `2 ^ 8`.  Variable-length byte strings (the compact amount
  encoding and the table blobs) are modelled as `List Nat` with entries below
  `256`.
* Python code that can raise is modelled with `Option` / `Except`: a `none`
  (or `.error`) result corresponds to an uncaught Python exception.
  `breakpoint()` calls are debugger hooks and are modelled as no-ops; where a
  `breakpoint()` is followed by code that must raise (e.g. a `KeyError` on a
  missing dictionary key), the model returns the error.
* SHA-256 is an external library primitive; coin names are therefore taken as
  an explicit parameter `nameFn : Coin → Nat` throughout the pipeline, in line
  with the collision-freeness assumption the repository itself makes.
* Recursions whose termination is not structural carry an explicit fuel
  parameter; every wrapper passes a fuel that is provably sufficient, so the
  fuel-exhaustion branches are unreachable.
-/

/-! ## Big-endian byte primitives

`beNat` is Python's `int.from_bytes(b, "big")`; `natToBeBytes k v` is
`v.to_bytes(k, "big")` (defined for every `v`, with faithfulness to Python --
which raises `OverflowError` when `v ≥ 2 ^ (8 * k)` -- recovered by the round
trip lemma below under that bound). -/

def beNat (bs : List Nat) : Nat :=
  bs.foldl (fun acc b => acc * 256 + b) 0

def natToBeBytes : Nat → Nat → List Nat
  | 0, _ => []
  | k + 1, v => natToBeBytes k (v / 256) ++ [v % 256]

theorem natToBeBytes_length (k v : Nat) : (natToBeBytes k v).length = k := by
  induction k generalizing v with
  | zero => rfl
  | succ k ih => simp [natToBeBytes, ih]

theorem beNat_append_singleton (bs : List Nat) (b : Nat) :
    beNat (bs ++ [b]) = beNat bs * 256 + b := by
  simp [beNat, List.foldl_append]

theorem beNat_natToBeBytes (k v : Nat) (h : v < 2 ^ (8 * k)) :
    beNat (natToBeBytes k v) = v := by
  induction k generalizing v with
  | zero =>
    have hv : v = 0 := by simpa using h
    simp [hv, natToBeBytes, beNat]
  | succ k ih =>
    have h2 : (2 : Nat) ^ (8 * (k + 1)) = 2 ^ (8 * k) * 256 := by
      rw [Nat.mul_succ, pow_add]
      norm_num
    rw [h2] at h
    have hdiv : v / 256 < 2 ^ (8 * k) := by omega
    rw [natToBeBytes, beNat_append_singleton, ih _ hdiv]
    omega

theorem natToBeBytes_lt_256 (k v : Nat) : ∀ b ∈ natToBeBytes k v, b < 256 := by
  induction k generalizing v with
  | zero => simp [natToBeBytes]
  | succ k ih =>
    intro b hb
    rw [natToBeBytes] at hb
    rcases List.mem_append.1 hb with h | h
    · exact ih _ _ h
    · simp only [List.mem_singleton] at h
      omega

/-! ## Bit length

`bitLen` is Python's `int.bit_length()`, characterised by
`2 ^ (bitLen v - 1) ≤ v < 2 ^ bitLen v` for `v ≠ 0` (and `bitLen 0 = 0`).
It is written with fuel so that it reduces by `decide`/`rfl`; `v` itself is
always enough fuel since `v / 2 < v` for `v ≠ 0`. -/

def bitLenAux : Nat → Nat → Nat
  | 0, _ => 0
  | fuel + 1, v => if v = 0 then 0 else bitLenAux fuel (v / 2) + 1

def bitLen (v : Nat) : Nat := bitLenAux v v

theorem bitLenAux_zero (fuel : Nat) : bitLenAux fuel 0 = 0 := by
  cases fuel <;> simp [bitLenAux]

theorem bitLenAux_fuel_irrel (v : Nat) : ∀ f₁ f₂, v ≤ f₁ → v ≤ f₂ →
    bitLenAux f₁ v = bitLenAux f₂ v := by
  induction v using Nat.strong_induction_on with
  | _ v ih =>
    intro f₁ f₂ h₁ h₂
    rcases Nat.eq_zero_or_pos v with hv | hv
    · subst hv
      rw [bitLenAux_zero, bitLenAux_zero]
    · obtain ⟨a, rfl⟩ : ∃ a, f₁ = a + 1 := ⟨f₁ - 1, by omega⟩
      obtain ⟨b, rfl⟩ : ∃ b, f₂ = b + 1 := ⟨f₂ - 1, by omega⟩
      rw [bitLenAux, bitLenAux, if_neg (by omega), if_neg (by omega)]
      have hlt : v / 2 < v := by omega
      rw [ih _ hlt a (v / 2) (by omega) le_rfl, ih _ hlt b (v / 2) (by omega) le_rfl]

theorem bitLen_rec (v : Nat) (hv : v ≠ 0) : bitLen v = bitLen (v / 2) + 1 := by
  obtain ⟨a, rfl⟩ : ∃ a, v = a + 1 := ⟨v - 1, by omega⟩
  show bitLenAux (a + 1) (a + 1) = bitLen ((a + 1) / 2) + 1
  rw [bitLenAux, if_neg hv, bitLen,
    bitLenAux_fuel_irrel ((a + 1) / 2) a ((a + 1) / 2) (by omega) le_rfl]

theorem bitLen_lt (v : Nat) : v < 2 ^ bitLen v := by
  induction v using Nat.strong_induction_on with
  | _ v ih =>
    rcases Nat.eq_zero_or_pos v with hv | hv
    · subst hv
      simp [bitLen, bitLenAux]
    · rw [bitLen_rec v (by omega), pow_succ]
      have := ih (v / 2) (by omega)
      omega

theorem bitLen_le (v : Nat) (hv : v ≠ 0) : 2 ^ (bitLen v - 1) ≤ v := by
  induction v using Nat.strong_induction_on with
  | _ v ih =>
    rcases Nat.lt_or_ge v 2 with h2 | h2
    · interval_cases v
      · exact absurd rfl hv
      · simp [bitLen, bitLenAux]
    · rw [bitLen_rec v (by omega)]
      have hne : v / 2 ≠ 0 := by omega
      have := ih (v / 2) (by omega) hne
      have hbl : bitLen (v / 2) ≠ 0 := by
        intro h0
        have hlt := bitLen_lt (v / 2)
        rw [h0, pow_zero] at hlt
        omega
      have hpow : (2 : Nat) ^ bitLen (v / 2) = 2 ^ (bitLen (v / 2) - 1) * 2 := by
        conv_lhs => rw [show bitLen (v / 2) = (bitLen (v / 2) - 1) + 1 by omega]
        rw [pow_succ]
      rw [Nat.add_sub_cancel, hpow]
      omega

/-! ## Compact amount encoding (`as_clvm_int`, `cdb/schema.py` lines 19-25)

```python
def as_clvm_int(v: int) -> bytes:
    if v == 0:
        return b""
    if v < 128:
        return bytes([v])
    size = 1 + v.bit_length() // 8
    return v.to_bytes(size, "big", signed=True)
```

Amounts are unsigned, so `v ≥ 0`; for `v ≥ 128` the chosen size always
satisfies `v < 2 ^ (8 * size - 1)` (proven below), so Python's signed
`to_bytes` never raises and produces the plain big-endian bytes. -/

def as_clvm_int (v : Nat) : List Nat :=
  if v = 0 then []
  else if v < 128 then [v]
  else natToBeBytes (1 + bitLen v / 8) v

/-- `Coin.name` (`cdb/schema.py` lines 40-48): SHA-256 over the concatenation
of the two 32-byte fields and the compact amount.  The digest function is an
external library primitive, taken as the parameter `sha256`. -/
def coin_name_bytes (sha256 : List Nat → List Nat)
    (parent_coin_name puzzle_hash : List Nat) (amount : Nat) : List Nat :=
  sha256 (parent_coin_name ++ puzzle_hash ++ as_clvm_int amount)

/-! ## Block blob codec (`cdb/schemas/hash_db_schema.py` lines 43-48)

```python
def list_int_to_bytes(items: list[int]) -> bytes:
    return b"".join(x.to_bytes(8, "big") for x in items)

def list_int_from_bytes(b: bytes) -> list[int]:
    return [int.from_bytes(b[i : i + 8], "big") for i in range(0, len(b), 8)]
```

`x.to_bytes(8, "big")` is the *unsigned* conversion: it raises
`OverflowError` when `x < 0` or `x ≥ 2 ^ 64`, hence the `Option`. -/

def intToBeBytes8 (x : Int) : Option (List Nat) :=
  if 0 ≤ x ∧ x < 2 ^ 64 then some (natToBeBytes 8 x.toNat)
  else none

def list_int_to_bytes (items : List Int) : Option (List Nat) :=
  (items.mapM intToBeBytes8).map List.flatten

def list_int_from_bytes : List Nat → List Int
  | [] => []
  | b1 :: b2 :: b3 :: b4 :: b5 :: b6 :: b7 :: b8 :: rest =>
    ((beNat [b1, b2, b3, b4, b5, b6, b7, b8] : Nat) : Int) ::
      list_int_from_bytes rest
  | bs => [((beNat bs : Nat) : Int)]



/-! ## Coinbase codec (`cdb/schemas/hash_db_schema.py` lines 31-72)

A 32-byte name `n` is modelled as a natural number; its first 16 bytes are
`n / 2 ^ 128`, its last 16 bytes are `n % 2 ^ 128`, and "bytes [16..24] are
all zero" is `n % 2 ^ 128 < 2 ^ 64`.  Python's `u & 0xFF` / `u >> 8` on
integers are floor-mod / floor-division by `256`, which for a positive
divisor coincide with Lean's euclidean `%` / `/` on `Int`. -/

def COINBASE_PREFIXES : List Nat :=
  [0x3ff07eb358e8255a65c30a2dce0e5fbb, 0xccd5bb71183532bff220ba46c268991a]

/-- `COINBASE_PREFIX_LOOKUP = {prefix: index}` as a function. -/
def coinbase_prefix_lookup (p : Nat) : Option Nat :=
  if p = 0x3ff07eb358e8255a65c30a2dce0e5fbb then some 0
  else if p = 0xccd5bb71183532bff220ba46c268991a then some 1
  else none

def is_coinbase_name (n : Nat) : Bool := n % 2 ^ 128 < 2 ^ 64

def as_coinbase_index (n : Nat) : Option Int :=
  if is_coinbase_name n then
    (coinbase_prefix_lookup (n / 2 ^ 128)).map
      (fun prefix_index => -(((n % 2 ^ 128) * 256 + prefix_index : Nat) : Int))
  else none

/-- `bytes32_for_negative_coin_index`: with `u = -coin_index`, the prefix
index is `u & 0xFF` and the high part is `u >> 8`.  `none` models Python's
`IndexError` (prefix index out of range for `COINBASE_PREFIXES`) or
`OverflowError` (`v.to_bytes(16, "big")` with `v` negative or `≥ 2 ^ 128`). -/
def bytes32_for_negative_coin_index (coin_index : Int) : Option Nat :=
  (COINBASE_PREFIXES.get? (((-coin_index) % 256).toNat)).bind fun pre =>
    if 0 ≤ (-coin_index) / 256 ∧ (-coin_index) / 256 < 2 ^ 128
    then some (pre * 2 ^ 128 + ((-coin_index) / 256).toNat)
    else none

theorem coinbase_prefix_lookup_of_not_mem (p : Nat) (h : p ∉ COINBASE_PREFIXES) :
    coinbase_prefix_lookup p = none := by
  simp only [COINBASE_PREFIXES, List.mem_cons, List.not_mem_nil, or_false,
    not_or] at h
  simp [coinbase_prefix_lookup, h.1, h.2]

theorem coinbase_prefix_lookup_get (p idx : Nat)
    (h : coinbase_prefix_lookup p = some idx) :
    COINBASE_PREFIXES.get? idx = some p ∧ idx < 256 := by
  rw [coinbase_prefix_lookup] at h
  split at h
  · cases h
    constructor
    · simp_all [COINBASE_PREFIXES]
    · omega
  · split at h
    · cases h
      constructor
      · simp_all [COINBASE_PREFIXES]
      · omega
    · cases h

theorem as_coinbase_index_left_inverse (n : Nat) (hwin : n % 2 ^ 128 < 2 ^ 64)
    (idx : Nat) (hlook : coinbase_prefix_lookup (n / 2 ^ 128) = some idx) :
    as_coinbase_index n = some (-(((n % 2 ^ 128) * 256 + idx : Nat) : Int)) ∧
      bytes32_for_negative_coin_index (-(((n % 2 ^ 128) * 256 + idx : Nat) : Int))
        = some n := by
  have hcb : is_coinbase_name n = true := by
    rw [is_coinbase_name]
    exact decide_eq_true hwin
  obtain ⟨hget, hidx⟩ := coinbase_prefix_lookup_get _ _ hlook
  constructor
  · rw [as_coinbase_index, if_pos hcb, hlook]
    rfl
  · rw [bytes32_for_negative_coin_index]
    simp only [neg_neg]
    have hmod : ((((n % 2 ^ 128) * 256 + idx : Nat) : Int) % 256).toNat = idx := by
      omega
    have hdiv : (((n % 2 ^ 128) * 256 + idx : Nat) : Int) / 256
        = ((n % 2 ^ 128 : Nat) : Int) := by
      omega
    rw [hmod, hget, Option.some_bind, hdiv]
    rw [if_pos ?side]
    case side =>
      constructor
      · exact Int.ofNat_nonneg _
      · exact_mod_cast Nat.lt_of_lt_of_le hwin (by norm_num)
    rw [Int.toNat_ofNat]
    congr 1
    omega

/-- **C4** (coinbase codec bijection): for every 32-byte name `n` whose bytes
[16..24] are all zero (`n % 2 ^ 128 < 2 ^ 64`) and whose first 16 bytes
(`n / 2 ^ 128`) equal an entry of `COINBASE_PREFIXES`, decoding the encoded
index returns `n`; for every non-positive `v` in the codec's image, encoding
the decoded name returns `v`; and a name matching the zero-window pattern
whose prefix is not in the table is reported as not coinbase (`none`). -/
theorem C4_coinbase_codec_bijection :
    (∀ n : Nat, n < 2 ^ 256 → n % 2 ^ 128 < 2 ^ 64 →
      n / 2 ^ 128 ∈ COINBASE_PREFIXES →
      ∃ v : Int, as_coinbase_index n = some v ∧
        bytes32_for_negative_coin_index v = some n) ∧
    (∀ v : Int, v ≤ 0 → (∃ n0 : Nat, as_coinbase_index n0 = some v) →
      ∃ n : Nat, bytes32_for_negative_coin_index v = some n ∧
        as_coinbase_index n = some v) ∧
    (∀ n : Nat, n % 2 ^ 128 < 2 ^ 64 → n / 2 ^ 128 ∉ COINBASE_PREFIXES →
      as_coinbase_index n = none) := by
  refine ⟨?enc, ?dec, ?notcb⟩
  case enc =>
    intro n _h256 hwin hmem
    have hlook : ∃ idx, coinbase_prefix_lookup (n / 2 ^ 128) = some idx := by
      simp only [COINBASE_PREFIXES, List.mem_cons, List.not_mem_nil, or_false] at hmem
      rcases hmem with h | h
      · exact ⟨0, by rw [coinbase_prefix_lookup, if_pos h]⟩
      · refine ⟨1, ?_⟩
        rw [coinbase_prefix_lookup, if_neg (by rw [h]; decide), if_pos h]
    obtain ⟨idx, hlook⟩ := hlook
    obtain ⟨h1, h2⟩ := as_coinbase_index_left_inverse n hwin idx hlook
    exact ⟨_, h1, h2⟩
  case dec =>
    intro v _hv ⟨n0, hn0⟩
    rw [as_coinbase_index] at hn0
    split at hn0
    case isFalse => cases hn0
    case isTrue hcb =>
      have hwin : n0 % 2 ^ 128 < 2 ^ 64 := of_decide_eq_true hcb
      cases hl : coinbase_prefix_lookup (n0 / 2 ^ 128) with
      | none => rw [hl] at hn0; cases hn0
      | some idx =>
        rw [hl, Option.map_some'] at hn0
        obtain ⟨h1, h2⟩ := as_coinbase_index_left_inverse n0 hwin idx hl
        cases hn0
        exact ⟨n0, h2, h1⟩
  case notcb =>
    intro n hwin hmem
    have hcb : is_coinbase_name n = true := by
      rw [is_coinbase_name]
      exact decide_eq_true hwin
    rw [as_coinbase_index, if_pos hcb,
      coinbase_prefix_lookup_of_not_mem _ hmem, Option.map_none']

/-- Witness for C4: the coinbase name with first prefix and low window 7
round-trips, and the zero-window name with unknown prefix 5 is rejected. -/
theorem C4_coinbase_codec_bijection_witness :
    ((0x3ff07eb358e8255a65c30a2dce0e5fbb * 2 ^ 128 + 7 : Nat) < 2 ^ 256 ∧
      (∃ v : Int,
        as_coinbase_index (0x3ff07eb358e8255a65c30a2dce0e5fbb * 2 ^ 128 + 7)
          = some v ∧
        bytes32_for_negative_coin_index v
          = some (0x3ff07eb358e8255a65c30a2dce0e5fbb * 2 ^ 128 + 7))) ∧
    as_coinbase_index (5 * 2 ^ 128 + 7) = none := by
  refine ⟨⟨by decide, ?_⟩, ?_⟩
  · exact C4_coinbase_codec_bijection.1 _ (by decide) (by decide) (by decide)
  · exact C4_coinbase_codec_bijection.2.2 _ (by decide) (by decide)

/-- **C7** (compact amount encoding): `as_clvm_int v` is empty for `v = 0`,
the single byte `[v]` for `0 < v < 128`, and otherwise the
`k = 1 + bit_length(v) / 8` big-endian bytes of `v`, where `k` is the
smallest byte count `≥ 1` that holds `v` as a signed big-endian value
(`v < 2 ^ (8k - 1)`); consequently a coin's name is
`SHA256(parent_coin_name ‖ puzzle_hash ‖ as_clvm_int amount)`. -/
theorem C7_compact_amount_encoding :
    as_clvm_int 0 = [] ∧
    (∀ v : Nat, 0 < v → v < 128 → as_clvm_int v = [v]) ∧
    (∀ v : Nat, 128 ≤ v →
      as_clvm_int v = natToBeBytes (1 + bitLen v / 8) v ∧
      beNat (natToBeBytes (1 + bitLen v / 8) v) = v ∧
      v < 2 ^ (8 * (1 + bitLen v / 8) - 1) ∧
      (∀ j : Nat, 1 ≤ j → v < 2 ^ (8 * j - 1) → 1 + bitLen v / 8 ≤ j)) ∧
    (∀ sha256 parent puzzle amount,
      coin_name_bytes sha256 parent puzzle amount
        = sha256 (parent ++ puzzle ++ as_clvm_int amount)) := by
  refine ⟨rfl, ?small, ?big, fun _ _ _ _ => rfl⟩
  case small =>
    intro v h0 h128
    rw [as_clvm_int, if_neg (by omega), if_pos h128]
  case big =>
    intro v hv
    have hvne : v ≠ 0 := by omega
    have hs8 : 8 ≤ bitLen v := by
      by_contra h
      have h1 : v < 2 ^ bitLen v := bitLen_lt v
      have h2 : (2 : Nat) ^ bitLen v ≤ 2 ^ 7 :=
        Nat.pow_le_pow_right (by norm_num) (by omega)
      norm_num at h2
      omega
    have hfit : v < 2 ^ (8 * (1 + bitLen v / 8) - 1) := by
      have hle : bitLen v ≤ 8 * (1 + bitLen v / 8) - 1 := by omega
      exact Nat.lt_of_lt_of_le (bitLen_lt v) (Nat.pow_le_pow_right (by norm_num) hle)
    refine ⟨?_, ?_, hfit, ?_⟩
    · rw [as_clvm_int, if_neg hvne, if_neg (by omega)]
    · refine beNat_natToBeBytes _ _ (Nat.lt_of_lt_of_le hfit ?_)
      exact Nat.pow_le_pow_right (by norm_num) (by omega)
    · intro j hj hvj
      have hlow : 2 ^ (bitLen v - 1) ≤ v := bitLen_le v hvne
      have : (2 : Nat) ^ (bitLen v - 1) < 2 ^ (8 * j - 1) := by omega
      have hexp : bitLen v - 1 < 8 * j - 1 :=
        (Nat.pow_lt_pow_iff_right (by norm_num)).1 this
      omega

/-- Witness for C7: `as_clvm_int 5 = [5]`; `as_clvm_int 300 = [0x01, 0x2c]`
(two bytes, since `bit_length 300 = 9`), which round-trips and is the minimal
signed width. -/
theorem C7_compact_amount_encoding_witness :
    as_clvm_int 5 = [5] ∧
    (as_clvm_int 300 = natToBeBytes (1 + bitLen 300 / 8) 300 ∧
      beNat (natToBeBytes (1 + bitLen 300 / 8) 300) = 300 ∧
      (300 : Nat) < 2 ^ (8 * (1 + bitLen 300 / 8) - 1) ∧
      1 + bitLen 300 / 8 ≤ 2) := by
  constructor
  · exact C7_compact_amount_encoding.2.1 5 (by decide) (by decide)
  · obtain ⟨h1, h2, h3, h4⟩ := C7_compact_amount_encoding.2.2.1 300 (by decide)
    exact ⟨h1, h2, h3, h4 2 (by decide) (by decide)⟩

/-- **C8 counterexample**: the blob encoder is the *unsigned* 8-byte
conversion, not the signed one claimed: encoding the negative id `-1`
(representable as a signed 8-byte value) raises `OverflowError` (`none`),
while `2 ^ 63` (outside the signed 8-byte range) encodes fine. -/
theorem C8_blob_encoding_counterexample :
    list_int_to_bytes [(-1 : Int)] = none ∧
    (-(2 ^ 63) : Int) ≤ -1 ∧
    list_int_to_bytes [((2 : Int) ^ 63)] = some (natToBeBytes 8 (2 ^ 63)) ∧
    ¬ ((2 : Int) ^ 63 < 2 ^ 63) := by
  refine ⟨rfl, by norm_num, by decide, by norm_num⟩

theorem list_int_from_bytes_append8 (c rest : List Nat) (hc : c.length = 8) :
    list_int_from_bytes (c ++ rest)
      = ((beNat c : Nat) : Int) :: list_int_from_bytes rest :=
  match c, hc with
  | [_, _, _, _, _, _, _, _], _ => rfl

/-- **C8 amended**: `spends_blob` / `confirms_blob` are the concatenation of
one 8-byte big-endian *unsigned* integer per resolved id, in resolution
order; the decoder splits such a blob back into the same list of ids
provided every id lies in `[0, 2 ^ 64)`; negative ids are not representable
(the encoder fails on them, as the counterexample shows). -/
theorem C8_blob_roundtrip_unsigned (items : List Int)
    (h : ∀ x ∈ items, 0 ≤ x ∧ x < 2 ^ 64) :
    ∃ b, list_int_to_bytes items = some b ∧
      b.length = 8 * items.length ∧
      list_int_from_bytes b = items := by
  induction items with
  | nil =>
    refine ⟨[], rfl, rfl, ?_⟩
    simp [list_int_from_bytes]
  | cons x rest ih =>
    obtain ⟨hx, hrest⟩ : (0 ≤ x ∧ x < 2 ^ 64) ∧ ∀ y ∈ rest, 0 ≤ y ∧ y < 2 ^ 64 := by
      constructor
      · exact h x (List.mem_cons_self x rest)
      · exact fun y hy => h y (List.mem_cons_of_mem _ hy)
    obtain ⟨b, hb, hlen, hdec⟩ := ih hrest
    refine ⟨natToBeBytes 8 x.toNat ++ b, ?_, ?_, ?_⟩
    · rw [list_int_to_bytes] at hb ⊢
      rw [List.mapM_cons]
      rw [intToBeBytes8, if_pos hx]
      cases hm : rest.mapM intToBeBytes8 with
      | none => rw [hm] at hb; cases hb
      | some l =>
        rw [hm] at hb
        simp only [Option.map_some'] at hb
        cases hb
        rfl
    · simp only [List.length_append, natToBeBytes_length, hlen, List.length_cons]
      omega
    · rw [list_int_from_bytes_append8 _ _ (natToBeBytes_length 8 x.toNat), hdec]
      have hr : beNat (natToBeBytes 8 x.toNat) = x.toNat := by
        refine beNat_natToBeBytes 8 x.toNat ?_
        omega
      rw [hr]
      congr 1
      omega

/-- Witness for the amended C8 at `[1, 300]`. -/
theorem C8_blob_roundtrip_unsigned_witness :
    ∃ b, list_int_to_bytes [(1 : Int), 300] = some b ∧
      b.length = 8 * 2 ∧
      list_int_from_bytes b = [(1 : Int), 300] := by
  simpa using C8_blob_roundtrip_unsigned [(1 : Int), 300] (by decide)

/-! ## Sorted Row File search (`cdb/hashdb/row_array_db.py` lines 44-117)

A row is a `(hash, id)` pair; 32-byte hashes compare lexicographically in
Python, which for fixed-length byte strings is exactly numeric comparison of
the `Nat` model.  The recursions are the source's loops, with a fuel bound on
the `[lower_bound, upper_bound)` window width. -/

abbrev HRow := Nat × Nat

/-- `_find_hash_inner`: classical binary search for one hash.  A fuel of
`upper_bound - lower_bound` is always sufficient, and the fuel-exhaustion
value `none` coincides with the empty-window answer. -/
def find_hash_inner (rows : List HRow) (h : Nat) :
    Nat → Nat → Nat → Option HRow
  | 0, _, _ => none
  | fuel + 1, lower_bound, upper_bound =>
    if lower_bound ≥ upper_bound then none
    else
      let mid := (upper_bound + lower_bound) / 2
      let row := rows.getD mid (0, 0)
      if row.1 = h then some row
      else if row.1 < h then find_hash_inner rows h fuel (mid + 1) upper_bound
      else find_hash_inner rows h fuel lower_bound mid

/-- `_find_hashes_inner_bs`: multi-key descent.  `so_far` and `missing` are
the two accumulators mutated by the Python code; the `while True` iteration
over the "above" queries is the tail call.  The window shrinks at every step,
so any fuel `> upper_bound - lower_bound` stays on the source's path. -/
def find_hashes_inner_bs (rows : List HRow) :
    Nat → List Nat → Nat → Nat → List HRow → List Nat → List HRow × List Nat
  | 0, _, _, _, so_far, missing => (so_far, missing)
  | fuel + 1, hs, lower_bound, upper_bound, so_far, missing =>
    if lower_bound ≥ upper_bound then (so_far, missing ++ hs)
    else if hs.length = 1 then
      match find_hash_inner rows (hs.headD 0)
          (upper_bound - lower_bound) lower_bound upper_bound with
      | none => (so_far, missing ++ [hs.headD 0])
      | some r => (so_far ++ [r], missing)
    else
      let mid := (upper_bound + lower_bound) / 2
      let row := rows.getD mid (0, 0)
      let so_far1 := so_far ++ (hs.filter (fun h => row.1 = h)).map (fun _ => row)
      let below := hs.filter (fun h => h < row.1)
      let above := hs.filter (fun h => row.1 < h)
      let step :=
        if below.length > 0 then
          find_hashes_inner_bs rows fuel below lower_bound mid so_far1 missing
        else (so_far1, missing)
      if above.length = 0 then step
      else find_hashes_inner_bs rows fuel above (mid + 1) upper_bound step.1 step.2

/-- `find_hashes` (module-level, per storage file, lines 109-117). -/
def storage_find_hashes (rows : List HRow) (hs : List Nat) :
    List HRow × List Nat :=
  find_hashes_inner_bs rows (rows.length + 1) hs 0 rows.length [] []

/-- In a file sorted strictly by hash, a hash determines its row. -/
theorem sorted_hash_unique (rows : List HRow)
    (hsort : rows.Pairwise (fun a b => a.1 < b.1)) :
    ∀ a ∈ rows, ∀ b ∈ rows, a.1 = b.1 → a = b := by
  intro a ha b hb hab
  obtain ⟨i, hi, rfl⟩ := List.getElem_of_mem ha
  obtain ⟨j, hj, rfl⟩ := List.getElem_of_mem hb
  rcases Nat.lt_trichotomy i j with h | h | h
  · have := (List.pairwise_iff_getElem.1 hsort) i j hi hj h
    omega
  · subst h
    rfl
  · have := (List.pairwise_iff_getElem.1 hsort) j i hj hi h
    omega

theorem find_hash_inner_spec (rows : List HRow) (h : Nat)
    (hsort : rows.Pairwise (fun a b => a.1 < b.1)) :
    ∀ fuel lo hi, hi ≤ rows.length → hi - lo ≤ fuel →
    (∀ i, (hlt : i < rows.length) → rows[i].1 = h → lo ≤ i ∧ i < hi) →
    ((find_hash_inner rows h fuel lo hi = none ↔ ∀ r ∈ rows, r.1 ≠ h) ∧
      (∀ r, find_hash_inner rows h fuel lo hi = some r → r ∈ rows ∧ r.1 = h)) := by
  intro fuel
  induction fuel with
  | zero =>
    intro lo hi hhi hfuel hocc
    constructor
    · rw [find_hash_inner]
      simp only [true_iff]
      intro r hr hrh
      obtain ⟨i, hi', rfl⟩ := List.getElem_of_mem hr
      have := hocc i hi' hrh
      omega
    · intro r hr
      cases hr
  | succ fuel ih =>
    intro lo hi hhi hfuel hocc
    rw [find_hash_inner]
    by_cases hlohi : lo ≥ hi
    · rw [if_pos hlohi]
      constructor
      · simp only [true_iff]
        intro r hr hrh
        obtain ⟨i, hi', rfl⟩ := List.getElem_of_mem hr
        have := hocc i hi' hrh
        omega
      · intro r hr
        cases hr
    · rw [if_neg hlohi]
      dsimp only
      have hmidlt : (hi + lo) / 2 < hi := by omega
      have hmidge : lo ≤ (hi + lo) / 2 := by omega
      have hmidlen : (hi + lo) / 2 < rows.length := by omega
      have hrow : rows.getD ((hi + lo) / 2) (0, 0) = rows[(hi + lo) / 2] :=
        List.getD_eq_getElem rows (0, 0) hmidlen
      rw [hrow]
      by_cases heq : rows[(hi + lo) / 2].1 = h
      · rw [if_pos heq]
        constructor
        · constructor
          · intro hcontra
            cases hcontra
          · intro hall
            exact absurd heq (hall _ (List.getElem_mem hmidlen))
        · intro r hr
          cases hr
          exact ⟨List.getElem_mem hmidlen, heq⟩
      · rw [if_neg heq]
        by_cases hlt : rows[(hi + lo) / 2].1 < h
        · rw [if_pos hlt]
          refine ih ((hi + lo) / 2 + 1) hi hhi (by omega) ?_
          intro i hlt' hih
          have hbase := hocc i hlt' hih
          refine ⟨?_, hbase.2⟩
          by_contra hcon
          have hile : i ≤ (hi + lo) / 2 := by omega
          rcases Nat.lt_or_ge i ((hi + lo) / 2) with hi2 | hi2
          · have := (List.pairwise_iff_getElem.1 hsort) i ((hi + lo) / 2) hlt' hmidlen hi2
            omega
          · have : i = (hi + lo) / 2 := by omega
            subst this
            omega
        · rw [if_neg hlt]
          refine ih lo ((hi + lo) / 2) (by omega) (by omega) ?_
          intro i hlt' hih
          have hbase := hocc i hlt' hih
          refine ⟨hbase.1, ?_⟩
          by_contra hcon
          rcases Nat.lt_or_ge ((hi + lo) / 2) i with hi2 | hi2
          · have := (List.pairwise_iff_getElem.1 hsort) ((hi + lo) / 2) i hmidlen hlt' hi2
            omega
          · have : i = (hi + lo) / 2 := by omega
            subst this
            omega

theorem find_hashes_inner_bs_spec (rows : List HRow)
    (hsort : rows.Pairwise (fun a b => a.1 < b.1)) :
    ∀ fuel (hs : List Nat) (lo hi : Nat) (so_far : List HRow) (missing : List Nat),
      hi ≤ rows.length → hi - lo < fuel →
      (∀ h ∈ hs, ∀ i, (hlt : i < rows.length) → rows[i].1 = h → lo ≤ i ∧ i < hi) →
      ((∀ r, r ∈ (find_hashes_inner_bs rows fuel hs lo hi so_far missing).1 ↔
          r ∈ so_far ∨ (r ∈ rows ∧ r.1 ∈ hs)) ∧
       (∀ h, h ∈ (find_hashes_inner_bs rows fuel hs lo hi so_far missing).2 ↔
          h ∈ missing ∨ (h ∈ hs ∧ h ∉ rows.map Prod.fst))) := by
  intro fuel
  induction fuel with
  | zero =>
    intro hs lo hi so_far missing hhi hfuel hocc
    omega
  | succ fuel ih =>
    intro hs lo hi so_far missing hhi hfuel hocc
    rw [find_hashes_inner_bs]
    by_cases hlohi : lo ≥ hi
    · rw [if_pos hlohi]
      constructor
      · intro r
        simp only
        constructor
        · intro hr
          exact Or.inl hr
        · rintro (hr | ⟨hrrows, hrhs⟩)
          · exact hr
          · obtain ⟨i, hi', rfl⟩ := List.getElem_of_mem hrrows
            have := hocc _ hrhs i hi' rfl
            omega
      · intro h
        simp only [List.mem_append]
        constructor
        · rintro (hm | hh)
          · exact Or.inl hm
          · refine Or.inr ⟨hh, ?_⟩
            intro hmem
            simp only [List.mem_map] at hmem
            obtain ⟨r, hrrows, hrh⟩ := hmem
            obtain ⟨i, hi', rfl⟩ := List.getElem_of_mem hrrows
            have := hocc _ hh i hi' hrh
            omega
        · rintro (hm | ⟨hh, _⟩)
          · exact Or.inl hm
          · exact Or.inr hh
    · rw [if_neg hlohi]
      by_cases hlen : hs.length = 1
      · rw [if_pos hlen]
        obtain ⟨h0, rfl⟩ : ∃ h0, hs = [h0] := by
          match hs, hlen with
          | [h0], _ => exact ⟨h0, rfl⟩
        have hspec := find_hash_inner_spec rows h0 hsort (hi - lo) lo hi hhi le_rfl
          (hocc h0 (List.mem_singleton.2 rfl))
        simp only [List.headD_cons]
        cases hres : find_hash_inner rows h0 (hi - lo) lo hi with
        | none =>
          rw [hres] at hspec
          have hnone := hspec.1.1 rfl
          constructor
          · intro r
            simp only
            constructor
            · exact fun hr => Or.inl hr
            · rintro (hr | ⟨hrrows, hrhs⟩)
              · exact hr
              · rw [List.mem_singleton] at hrhs
                exact absurd hrhs (hnone r hrrows)
          · intro h
            simp only [List.mem_append, List.mem_singleton]
            constructor
            · rintro (hm | rfl)
              · exact Or.inl hm
              · refine Or.inr ⟨rfl, ?_⟩
                intro hmem
                simp only [List.mem_map] at hmem
                obtain ⟨r, hrrows, hrh⟩ := hmem
                exact absurd hrh (hnone r hrrows)
            · rintro (hm | ⟨hh, _⟩)
              · exact Or.inl hm
              · exact Or.inr hh
        | some r0 =>
          rw [hres] at hspec
          obtain ⟨hr0rows, hr0h⟩ := hspec.2 r0 rfl
          constructor
          · intro r
            simp only [List.mem_append, List.mem_singleton]
            constructor
            · rintro (hr | rfl)
              · exact Or.inl hr
              · exact Or.inr ⟨hr0rows, hr0h⟩
            · rintro (hr | ⟨hrrows, hrhs⟩)
              · exact Or.inl hr
              · refine Or.inr ?_
                exact sorted_hash_unique rows hsort r hrrows r0 hr0rows (by rw [hrhs, hr0h])
          · intro h
            simp only
            constructor
            · exact fun hm => Or.inl hm
            · rintro (hm | ⟨hh, hnot⟩)
              · exact hm
              · rw [List.mem_singleton] at hh
                subst hh
                exact absurd (List.mem_map.2 ⟨r0, hr0rows, hr0h⟩) hnot
      · rw [if_neg hlen]
        dsimp only
        have hmidlt : (hi + lo) / 2 < hi := by omega
        have hmidge : lo ≤ (hi + lo) / 2 := by omega
        have hmidlen : (hi + lo) / 2 < rows.length := by omega
        rw [List.getD_eq_getElem rows (0, 0) hmidlen]
        have hrowmem : rows[(hi + lo) / 2] ∈ rows := List.getElem_mem hmidlen
        -- window restriction for the "below" queries
        have hocc_below : ∀ h ∈ hs.filter (fun h => decide (h < rows[(hi + lo) / 2].1)),
            ∀ i, (hlt : i < rows.length) → rows[i].1 = h → lo ≤ i ∧ i < (hi + lo) / 2 := by
          intro h hmem i hlt hih
          rw [List.mem_filter, decide_eq_true_eq] at hmem
          obtain ⟨hhs, hblw⟩ := hmem
          have hbase := hocc h hhs i hlt hih
          refine ⟨hbase.1, ?_⟩
          by_contra hcon
          rcases Nat.lt_or_ge ((hi + lo) / 2) i with h2 | h2
          · have := (List.pairwise_iff_getElem.1 hsort) ((hi + lo) / 2) i hmidlen hlt h2
            omega
          · have : i = (hi + lo) / 2 := by omega
            subst this
            omega
        -- window restriction for the "above" queries
        have hocc_above : ∀ h ∈ hs.filter (fun h => decide (rows[(hi + lo) / 2].1 < h)),
            ∀ i, (hlt : i < rows.length) → rows[i].1 = h →
              (hi + lo) / 2 + 1 ≤ i ∧ i < hi := by
          intro h hmem i hlt hih
          rw [List.mem_filter, decide_eq_true_eq] at hmem
          obtain ⟨hhs, habv⟩ := hmem
          have hbase := hocc h hhs i hlt hih
          refine ⟨?_, hbase.2⟩
          by_contra hcon
          rcases Nat.lt_or_ge i ((hi + lo) / 2) with h2 | h2
          · have := (List.pairwise_iff_getElem.1 hsort) i ((hi + lo) / 2) hlt hmidlen h2
            omega
          · have : i = (hi + lo) / 2 := by omega
            subst this
            omega
        -- characterisation of so_far after the equal-hash emissions
        have hsofar1 : ∀ x : HRow,
            x ∈ so_far ++ (hs.filter (fun h => decide (rows[(hi + lo) / 2].1 = h))).map
                (fun _ => rows[(hi + lo) / 2]) ↔
              x ∈ so_far ∨ (x = rows[(hi + lo) / 2] ∧ rows[(hi + lo) / 2].1 ∈ hs) := by
          intro x
          simp only [List.mem_append, List.mem_map, List.mem_filter, decide_eq_true_eq]
          constructor
          · rintro (hx | ⟨a, ⟨hahs, haeq⟩, rfl⟩)
            · exact Or.inl hx
            · exact Or.inr ⟨rfl, by rw [haeq]; exact hahs⟩
          · rintro (hx | ⟨rfl, hmem⟩)
            · exact Or.inl hx
            · exact Or.inr ⟨rows[(hi + lo) / 2].1, ⟨hmem, rfl⟩, rfl⟩
        -- characterisation of the "step" value (below handled, or skipped)
        have hstep :
            (∀ x : HRow, x ∈ (if (hs.filter (fun h => decide (h < rows[(hi + lo) / 2].1))).length > 0 then
                find_hashes_inner_bs rows fuel
                  (hs.filter (fun h => decide (h < rows[(hi + lo) / 2].1))) lo ((hi + lo) / 2)
                  (so_far ++ (hs.filter (fun h => decide (rows[(hi + lo) / 2].1 = h))).map
                    (fun _ => rows[(hi + lo) / 2])) missing
              else (so_far ++ (hs.filter (fun h => decide (rows[(hi + lo) / 2].1 = h))).map
                    (fun _ => rows[(hi + lo) / 2]), missing)).1 ↔
              (x ∈ so_far ∨ (x = rows[(hi + lo) / 2] ∧ rows[(hi + lo) / 2].1 ∈ hs)) ∨
                (x ∈ rows ∧ x.1 ∈ hs ∧ x.1 < rows[(hi + lo) / 2].1)) ∧
            (∀ h, h ∈ (if (hs.filter (fun h => decide (h < rows[(hi + lo) / 2].1))).length > 0 then
                find_hashes_inner_bs rows fuel
                  (hs.filter (fun h => decide (h < rows[(hi + lo) / 2].1))) lo ((hi + lo) / 2)
                  (so_far ++ (hs.filter (fun h => decide (rows[(hi + lo) / 2].1 = h))).map
                    (fun _ => rows[(hi + lo) / 2])) missing
              else (so_far ++ (hs.filter (fun h => decide (rows[(hi + lo) / 2].1 = h))).map
                    (fun _ => rows[(hi + lo) / 2]), missing)).2 ↔
              h ∈ missing ∨ (h ∈ hs ∧ h < rows[(hi + lo) / 2].1 ∧ h ∉ rows.map Prod.fst)) := by
          by_cases hb : (hs.filter (fun h => decide (h < rows[(hi + lo) / 2].1))).length > 0
          · rw [if_pos hb]
            obtain ⟨ihf, ihm⟩ := ih (hs.filter (fun h => decide (h < rows[(hi + lo) / 2].1)))
              lo ((hi + lo) / 2)
              (so_far ++ (hs.filter (fun h => decide (rows[(hi + lo) / 2].1 = h))).map
                    (fun _ => rows[(hi + lo) / 2])) missing
              (by omega) (by omega) hocc_below
            constructor
            · intro x
              rw [ihf x, hsofar1 x]
              simp only [List.mem_filter, decide_eq_true_eq]
            · intro h
              rw [ihm h]
              simp only [List.mem_filter, decide_eq_true_eq]
              tauto
          · rw [if_neg hb]
            have hempty : hs.filter (fun h => decide (h < rows[(hi + lo) / 2].1)) = [] := by
              cases hfe : hs.filter (fun h => decide (h < rows[(hi + lo) / 2].1)) with
              | nil => rfl
              | cons a l => rw [hfe] at hb; simp at hb
            constructor
            · intro x
              rw [hsofar1 x]
              constructor
              · exact fun hx => Or.inl hx
              · rintro (hx | ⟨hxrows, hxhs, hxlt⟩)
                · exact hx
                · have : x.1 ∈ hs.filter (fun h => decide (h < rows[(hi + lo) / 2].1)) := by
                    rw [List.mem_filter, decide_eq_true_eq]
                    exact ⟨hxhs, hxlt⟩
                  rw [hempty] at this
                  cases this
            · intro h
              constructor
              · exact fun hm => Or.inl hm
              · rintro (hm | ⟨hhs, hlt, _⟩)
                · exact hm
                · have : h ∈ hs.filter (fun h => decide (h < rows[(hi + lo) / 2].1)) := by
                    rw [List.mem_filter, decide_eq_true_eq]
                    exact ⟨hhs, hlt⟩
                  rw [hempty] at this
                  cases this
        -- now the final "above" stage on top of the step value
        by_cases ha : (hs.filter (fun h => decide (rows[(hi + lo) / 2].1 < h))).length = 0
        · rw [if_pos ha]
          have haempty : hs.filter (fun h => decide (rows[(hi + lo) / 2].1 < h)) = [] :=
            List.length_eq_zero.1 ha
          obtain ⟨hs1, hs2⟩ := hstep
          constructor
          · intro x
            rw [hs1 x]
            constructor
            · rintro ((hx | ⟨rfl, hmem⟩) | ⟨hxrows, hxhs, _⟩)
              · exact Or.inl hx
              · exact Or.inr ⟨hrowmem, hmem⟩
              · exact Or.inr ⟨hxrows, hxhs⟩
            · rintro (hx | ⟨hxrows, hxhs⟩)
              · exact Or.inl (Or.inl hx)
              · rcases Nat.lt_trichotomy x.1 rows[(hi + lo) / 2].1 with hc | hc | hc
                · exact Or.inr ⟨hxrows, hxhs, hc⟩
                · refine Or.inl (Or.inr ⟨?_, by rw [← hc]; exact hxhs⟩)
                  exact sorted_hash_unique rows hsort x hxrows _ hrowmem hc
                · exfalso
                  have : x.1 ∈ hs.filter (fun h => decide (rows[(hi + lo) / 2].1 < h)) := by
                    rw [List.mem_filter, decide_eq_true_eq]
                    exact ⟨hxhs, hc⟩
                  rw [haempty] at this
                  cases this
          · intro h
            rw [hs2 h]
            constructor
            · rintro (hm | ⟨hhs, _, hnot⟩)
              · exact Or.inl hm
              · exact Or.inr ⟨hhs, hnot⟩
            · rintro (hm | ⟨hhs, hnot⟩)
              · exact Or.inl hm
              · rcases Nat.lt_trichotomy h rows[(hi + lo) / 2].1 with hc | hc | hc
                · exact Or.inr ⟨hhs, hc, hnot⟩
                · exfalso
                  exact hnot (List.mem_map.2 ⟨_, hrowmem, hc.symm⟩)
                · exfalso
                  have : h ∈ hs.filter (fun h => decide (rows[(hi + lo) / 2].1 < h)) := by
                    rw [List.mem_filter, decide_eq_true_eq]
                    exact ⟨hhs, hc⟩
                  rw [haempty] at this
                  cases this
        · rw [if_neg ha]
          obtain ⟨hs1, hs2⟩ := hstep
          obtain ⟨ihf, ihm⟩ := ih (hs.filter (fun h => decide (rows[(hi + lo) / 2].1 < h)))
            ((hi + lo) / 2 + 1) hi _ _ hhi (by omega) hocc_above
          constructor
          · intro x
            rw [ihf x, hs1 x]
            simp only [List.mem_filter, decide_eq_true_eq]
            constructor
            · rintro (((hx | ⟨rfl, hmem⟩) | ⟨hxrows, hxhs, _⟩) | ⟨hxrows, hxhs, _⟩)
              · exact Or.inl hx
              · exact Or.inr ⟨hrowmem, hmem⟩
              · exact Or.inr ⟨hxrows, hxhs⟩
              · exact Or.inr ⟨hxrows, hxhs⟩
            · rintro (hx | ⟨hxrows, hxhs⟩)
              · exact Or.inl (Or.inl (Or.inl hx))
              · rcases Nat.lt_trichotomy x.1 rows[(hi + lo) / 2].1 with hc | hc | hc
                · exact Or.inl (Or.inr ⟨hxrows, hxhs, hc⟩)
                · refine Or.inl (Or.inl (Or.inr ⟨?_, by rw [← hc]; exact hxhs⟩))
                  exact sorted_hash_unique rows hsort x hxrows _ hrowmem hc
                · exact Or.inr ⟨hxrows, hxhs, hc⟩
          · intro h
            rw [ihm h, hs2 h]
            simp only [List.mem_filter, decide_eq_true_eq]
            constructor
            · rintro ((hm | ⟨hhs, _, hnot⟩) | ⟨⟨hhs, _⟩, hnot⟩)
              · exact Or.inl hm
              · exact Or.inr ⟨hhs, hnot⟩
              · exact Or.inr ⟨hhs, hnot⟩
            · rintro (hm | ⟨hhs, hnot⟩)
              · exact Or.inl (Or.inl hm)
              · rcases Nat.lt_trichotomy h rows[(hi + lo) / 2].1 with hc | hc | hc
                · exact Or.inl (Or.inr ⟨hhs, hc, hnot⟩)
                · exfalso
                  exact hnot (List.mem_map.2 ⟨_, hrowmem, hc.symm⟩)
                · exact Or.inr ⟨⟨hhs, hc⟩, hnot⟩

/-- **C3** (per-file multi-key search correctness): for every Sorted Row File
whose rows are sorted strictly ascending by hash and every query list, the
multi-key-descent `find_hashes` returns as found exactly the `(hash, id)`
rows of the file whose hash occurs in the query list, and as missing exactly
the queried hashes not present in the file; a missing key is returned, not an
error, at this layer. -/
theorem C3_per_file_find_hashes (rows : List HRow) (hs : List Nat)
    (hsort : rows.Pairwise (fun a b => a.1 < b.1)) :
    (∀ r : HRow, r ∈ (storage_find_hashes rows hs).1 ↔
        r ∈ rows ∧ r.1 ∈ hs) ∧
    (∀ h : Nat, h ∈ (storage_find_hashes rows hs).2 ↔
        h ∈ hs ∧ h ∉ rows.map Prod.fst) := by
  obtain ⟨h1, h2⟩ := find_hashes_inner_bs_spec rows hsort (rows.length + 1) hs
    0 rows.length [] [] le_rfl (by omega)
    (fun h _ i hlt hih => ⟨Nat.zero_le i, hlt⟩)
  rw [storage_find_hashes]
  constructor
  · intro r
    rw [h1 r]
    simp
  · intro h
    rw [h2 h]
    simp

/-- Witness for C3 on the file `[(1,10),(3,30),(5,50)]` with queries
`[3, 4]`: row `(3,30)` is found, `4` is missing. -/
theorem C3_per_file_find_hashes_witness :
    ([(1, 10), (3, 30), (5, 50)] : List HRow).Pairwise (fun a b => a.1 < b.1) ∧
    ((3, 30) ∈ (storage_find_hashes [(1, 10), (3, 30), (5, 50)] [3, 4]).1 ∧
      (4, 40) ∉ (storage_find_hashes [(1, 10), (3, 30), (5, 50)] [3, 4]).1) ∧
    (4 ∈ (storage_find_hashes [(1, 10), (3, 30), (5, 50)] [3, 4]).2 ∧
      3 ∉ (storage_find_hashes [(1, 10), (3, 30), (5, 50)] [3, 4]).2) := by
  have hsort : ([(1, 10), (3, 30), (5, 50)] : List HRow).Pairwise
      (fun a b => a.1 < b.1) := by decide
  obtain ⟨h1, h2⟩ := C3_per_file_find_hashes [(1, 10), (3, 30), (5, 50)] [3, 4] hsort
  refine ⟨hsort, ⟨?_, ?_⟩, ?_, ?_⟩
  · exact (h1 (3, 30)).2 ⟨by decide, by decide⟩
  · intro hmem
    have := (h1 (4, 40)).1 hmem
    revert this
    decide
  · exact (h2 4).2 ⟨by decide, by decide⟩
  · intro hmem
    have := (h2 3).1 hmem
    revert this
    decide

/-! ## Row-File Forest (`cdb/hashdb/row_array_db.py` lines 120-233 and
`sorted_merged_rows`, `cdb/row_array_storage.py` lines 32-52)

Python's `list.sort` / `sorted` are stable; any stable sort by the same key
computes the same list, so they are modelled by a stable insertion sort.
Rows compare as Python tuples: lexicographically. -/

def insertStable {α : Type} (lt : α → α → Bool) (x : α) : List α → List α
  | [] => [x]
  | y :: ys => if lt x y then x :: y :: ys else y :: insertStable lt x ys

def sortStable {α : Type} (lt : α → α → Bool) (l : List α) : List α :=
  l.foldl (fun acc x => insertStable lt x acc) []

theorem insertStable_perm {α : Type} (lt : α → α → Bool) (x : α) (l : List α) :
    (insertStable lt x l).Perm (x :: l) := by
  induction l with
  | nil => exact List.Perm.refl _
  | cons y ys ih =>
    rw [insertStable]
    split
    · exact List.Perm.refl _
    · exact (ih.cons y).trans (List.Perm.swap x y ys)

theorem sortStable_perm {α : Type} (lt : α → α → Bool) (l : List α) :
    (sortStable lt l).Perm l := by
  suffices h : ∀ acc : List α,
      (l.foldl (fun acc x => insertStable lt x acc) acc).Perm (l ++ acc) by
    simpa using h []
  induction l with
  | nil => intro acc; simp
  | cons x xs ih =>
    intro acc
    rw [List.foldl_cons, List.cons_append]
    refine (ih (insertStable lt x acc)).trans ?_
    refine (List.Perm.append_left xs (insertStable_perm lt x acc)).trans ?_
    exact List.perm_middle

theorem insertStable_pairwise_hashLe (x : HRow) (l : List HRow)
    (hl : l.Pairwise (fun a b : HRow => a.1 ≤ b.1)) :
    (insertStable (fun a b : HRow => decide (a.1 < b.1)) x l).Pairwise
      (fun a b : HRow => a.1 ≤ b.1) := by
  induction l with
  | nil => simp [insertStable]
  | cons y ys ih =>
    rw [insertStable]
    rcases List.pairwise_cons.1 hl with ⟨hy, hys⟩
    split
    case isTrue hxy =>
      rw [decide_eq_true_eq] at hxy
      refine List.pairwise_cons.2 ⟨?_, hl⟩
      intro z hz
      rcases List.mem_cons.1 hz with rfl | hz
      · omega
      · have := hy z hz
        omega
    case isFalse hxy =>
      rw [decide_eq_true_eq] at hxy
      refine List.pairwise_cons.2 ⟨?_, ih hys⟩
      intro z hz
      have hz' := (insertStable_perm _ x ys).mem_iff.1 hz
      rcases List.mem_cons.1 hz' with rfl | hz'
      · omega
      · exact hy z hz'

theorem sortStable_pairwise_hashLe (l : List HRow) :
    (sortStable (fun a b : HRow => decide (a.1 < b.1)) l).Pairwise
      (fun a b : HRow => a.1 ≤ b.1) := by
  suffices h : ∀ acc : List HRow, acc.Pairwise (fun a b : HRow => a.1 ≤ b.1) →
      (l.foldl (fun acc x => insertStable (fun a b : HRow => decide (a.1 < b.1)) x acc)
        acc).Pairwise (fun a b : HRow => a.1 ≤ b.1) by
    exact h [] (List.Pairwise.nil)
  induction l with
  | nil => exact fun acc h => h
  | cons x xs ih =>
    intro acc hacc
    rw [List.foldl_cons]
    exact ih _ (insertStable_pairwise_hashLe x acc hacc)

/-- Python tuple comparison on `(hash, id)` rows: lexicographic. -/
def rowLtBool (a b : HRow) : Bool :=
  decide (a.1 < b.1 ∨ (a.1 = b.1 ∧ a.2 < b.2))

theorem rowLtBool_trans_neg (r b c : HRow) (h1 : rowLtBool r b = false)
    (h2 : rowLtBool r c = true) : rowLtBool b c = true := by
  simp only [rowLtBool, decide_eq_false_iff_not, decide_eq_true_eq, not_or,
    not_and, not_lt] at *
  omega

theorem rowLtBool_trans_lt (r b c : HRow) (h1 : rowLtBool r b = true)
    (h2 : rowLtBool b c = true) : rowLtBool r c = true := by
  simp only [rowLtBool, decide_eq_true_eq] at *
  omega

theorem rowLtBool_hash_le (a b : HRow) (h : rowLtBool a b = false) :
    b.1 ≤ a.1 := by
  simp only [rowLtBool, decide_eq_false_iff_not, not_or, not_and, not_lt] at h
  omega

/-- The index/value of the minimum of `bestRow :: rs`, ties to the earliest:
this is Python's `min(range(len(...)), key=...)` over the current heads. -/
def minIdxRowAux : Nat → HRow → Nat → List HRow → Nat × HRow
  | best, bestRow, _, [] => (best, bestRow)
  | best, bestRow, i, r :: rs =>
    if rowLtBool r bestRow then minIdxRowAux i r (i + 1) rs
    else minIdxRowAux best bestRow (i + 1) rs

theorem minIdxRowAux_loc : ∀ (rs : List HRow) (best : Nat) (bestRow : HRow) (i : Nat),
    minIdxRowAux best bestRow i rs = (best, bestRow) ∨
      ∃ k, ∃ hk : k < rs.length, minIdxRowAux best bestRow i rs = (i + k, rs[k]) := by
  intro rs
  induction rs with
  | nil => intro best bestRow i; exact Or.inl rfl
  | cons r rs ih =>
    intro best bestRow i
    rw [minIdxRowAux]
    split
    · rcases ih i r (i + 1) with h | ⟨k, hk, h⟩
      · refine Or.inr ⟨0, by simp, ?_⟩
        simpa using h
      · refine Or.inr ⟨k + 1, by simpa using Nat.succ_lt_succ hk, ?_⟩
        rw [h]
        simp only [List.getElem_cons_succ, Prod.mk.injEq]
        exact ⟨by omega, trivial⟩
    · rcases ih best bestRow (i + 1) with h | ⟨k, hk, h⟩
      · exact Or.inl h
      · refine Or.inr ⟨k + 1, by simpa using Nat.succ_lt_succ hk, ?_⟩
        rw [h]
        simp only [List.getElem_cons_succ, Prod.mk.injEq]
        exact ⟨by omega, trivial⟩

theorem minIdxRowAux_min : ∀ (rs : List HRow) (best : Nat) (bestRow : HRow) (i : Nat),
    ∀ x ∈ bestRow :: rs, rowLtBool x (minIdxRowAux best bestRow i rs).2 = false := by
  intro rs
  induction rs with
  | nil =>
    intro best bestRow i x hx
    rcases List.mem_cons.1 hx with rfl | hx
    · rw [minIdxRowAux]
      simp [rowLtBool]
    · cases hx
  | cons r rs ih =>
    intro best bestRow i x hx
    rw [minIdxRowAux]
    split
    case isTrue hlt =>
      have hmin := ih i r (i + 1)
      rcases List.mem_cons.1 hx with rfl | hx
      · -- x = bestRow; the recursive min is ≤ r < bestRow
        have hr := hmin r (List.mem_cons_self r rs)
        by_contra hcon
        rw [Bool.not_eq_false] at hcon
        exact absurd (rowLtBool_trans_lt r _ _ hlt hcon) (by rw [hr]; simp)
      · rcases List.mem_cons.1 hx with rfl | hx
        · exact hmin x (List.mem_cons_self x rs)
        · exact hmin x (List.mem_cons_of_mem r hx)
    case isFalse hlt =>
      have hmin := ih best bestRow (i + 1)
      rcases List.mem_cons.1 hx with rfl | hx
      · exact hmin x (List.mem_cons_self x rs)
      · rcases List.mem_cons.1 hx with rfl | hx
        · -- x = r with bestRow ≤ r
          by_contra hcon
          rw [Bool.not_eq_false] at hcon
          have hbc := rowLtBool_trans_neg x bestRow _ (by simpa using hlt) hcon
          exact absurd hbc (by rw [hmin bestRow (List.mem_cons_self bestRow rs)]; simp)
        · exact hmin x (List.mem_cons_of_mem bestRow hx)

/-- Total cost of a merge state: one pending head row plus the remaining
iterator length per input; it decreases by exactly one at every yield. -/
def mergeMeasure (st : List (HRow × List HRow)) : Nat :=
  (st.map (fun p => 1 + p.2.length)).sum

/-- Contents of a merge state: the pending head and the rest of each input. -/
def stRows (st : List (HRow × List HRow)) : List HRow :=
  (st.map (fun p => p.1 :: p.2)).flatten

/-- The loop of `sorted_merged_rows`: pick the input with the smallest head
(ties to the lowest index), yield it, and advance or retire that input. -/
def sortedMergedRowsGo : Nat → List (HRow × List HRow) → List HRow
  | _, [] => []
  | 0, _ :: _ => []
  | fuel + 1, p :: ps =>
    let m := minIdxRowAux 0 p.1 1 (ps.map (fun q => q.1))
    let entry := (p :: ps).getD m.1 ((0, 0), [])
    m.2 :: sortedMergedRowsGo fuel
      (match entry.2 with
       | [] => (p :: ps).eraseIdx m.1
       | x :: xs => (p :: ps).set m.1 (x, xs))

/-- `sorted_merged_rows` (`cdb/row_array_storage.py`): prime each input with
its first row, drop exhausted inputs, then run the n-way merge loop. -/
def sorted_merged_rows (dbs : List (List HRow)) : List HRow :=
  let st := dbs.filterMap
    (fun l => match l with | [] => none | x :: xs => some (x, xs))
  sortedMergedRowsGo (mergeMeasure st) st

theorem stRows_append (l₁ l₂ : List (HRow × List HRow)) :
    stRows (l₁ ++ l₂) = stRows l₁ ++ stRows l₂ := by
  simp [stRows]

theorem mergeMeasure_append (l₁ l₂ : List (HRow × List HRow)) :
    mergeMeasure (l₁ ++ l₂) = mergeMeasure l₁ + mergeMeasure l₂ := by
  simp [mergeMeasure]

/-- The chosen minimum of `sortedMergedRowsGo` is a valid index whose head is
the chosen row. -/
theorem merge_min_facts (p : HRow × List HRow) (ps : List (HRow × List HRow)) :
    ∃ hm : (minIdxRowAux 0 p.1 1 (ps.map (fun q => q.1))).1 < (p :: ps).length,
      ((p :: ps)[(minIdxRowAux 0 p.1 1 (ps.map (fun q => q.1))).1]).1
        = (minIdxRowAux 0 p.1 1 (ps.map (fun q => q.1))).2 := by
  rcases minIdxRowAux_loc (ps.map (fun q => q.1)) 0 p.1 1 with h | ⟨k, hk, h⟩
  · rw [h]
    exact ⟨by simp, rfl⟩
  · simp only [List.length_map] at hk
    rw [h]
    have h1k : 1 + k = k + 1 := by omega
    refine ⟨by simp; omega, ?_⟩
    simp only [h1k, List.getElem_cons_succ, List.getElem_map]

theorem stRows_cons (e : HRow × List HRow) (l : List (HRow × List HRow)) :
    stRows (e :: l) = (e.1 :: e.2) ++ stRows l := by
  simp [stRows]

theorem mergeMeasure_cons (e : HRow × List HRow) (l : List (HRow × List HRow)) :
    mergeMeasure (e :: l) = (1 + e.2.length) + mergeMeasure l := by
  simp [mergeMeasure]

theorem stRows_mem (st : List (HRow × List HRow)) (y : HRow) :
    y ∈ stRows st ↔ ∃ q ∈ st, y ∈ q.1 :: q.2 := by
  rw [stRows, List.mem_flatten]
  constructor
  · rintro ⟨l, hl, hyl⟩
    obtain ⟨q, hq, rfl⟩ := List.mem_map.1 hl
    exact ⟨q, hq, hyl⟩
  · rintro ⟨q, hq, hyq⟩
    exact ⟨q.1 :: q.2, List.mem_map_of_mem _ hq, hyq⟩

/-- The chosen head is lexicographically minimal among all current heads. -/
theorem merge_min_le (p : HRow × List HRow) (ps : List (HRow × List HRow)) :
    ∀ q ∈ p :: ps,
      rowLtBool q.1 (minIdxRowAux 0 p.1 1 (ps.map (fun q => q.1))).2 = false := by
  intro q hq
  refine minIdxRowAux_min (ps.map (fun q => q.1)) 0 p.1 1 q.1 ?_
  rcases List.mem_cons.1 hq with rfl | hq
  · exact List.mem_cons_self _ _
  · exact List.mem_cons_of_mem _ (List.mem_map_of_mem _ hq)

theorem sortedMergedRowsGo_spec : ∀ (fuel : Nat) (st : List (HRow × List HRow)),
    mergeMeasure st ≤ fuel →
    ((sortedMergedRowsGo fuel st).Perm (stRows st) ∧
      ((∀ q ∈ st, (q.1 :: q.2).Pairwise (fun a b : HRow => a.1 ≤ b.1)) →
        (sortedMergedRowsGo fuel st).Pairwise (fun a b : HRow => a.1 ≤ b.1))) := by
  intro fuel
  induction fuel with
  | zero =>
    intro st hfuel
    cases st with
    | nil =>
      constructor
      · simp [sortedMergedRowsGo, stRows]
      · intro _
        simp [sortedMergedRowsGo]
    | cons p ps =>
      exfalso
      rw [mergeMeasure_cons] at hfuel
      omega
  | succ fuel ih =>
    intro st hfuel
    cases st with
    | nil =>
      constructor
      · simp [sortedMergedRowsGo, stRows]
      · intro _
        simp [sortedMergedRowsGo]
    | cons p ps =>
      obtain ⟨hm, hE⟩ := merge_min_facts p ps
      rw [sortedMergedRowsGo]
      rw [List.getD_eq_getElem (p :: ps) ((0, 0), []) hm]
      have hdecomp : p :: ps
          = (p :: ps).take (minIdxRowAux 0 p.1 1 (ps.map (fun q => q.1))).1 ++
            (p :: ps)[(minIdxRowAux 0 p.1 1 (ps.map (fun q => q.1))).1] ::
            (p :: ps).drop ((minIdxRowAux 0 p.1 1 (ps.map (fun q => q.1))).1 + 1) := by
        conv_lhs => rw [← List.take_append_drop
          (minIdxRowAux 0 p.1 1 (ps.map (fun q => q.1))).1 (p :: ps)]
        rw [List.drop_eq_getElem_cons hm]
      have hmin := merge_min_le p ps
      -- measure decomposition over take/entry/drop
      have hmeas : mergeMeasure (p :: ps)
          = mergeMeasure ((p :: ps).take (minIdxRowAux 0 p.1 1 (ps.map (fun q => q.1))).1) +
            (1 + ((p :: ps)[(minIdxRowAux 0 p.1 1 (ps.map (fun q => q.1))).1]).2.length) +
            mergeMeasure ((p :: ps).drop
              ((minIdxRowAux 0 p.1 1 (ps.map (fun q => q.1))).1 + 1)) := by
        conv_lhs => rw [hdecomp]
        rw [mergeMeasure_append, mergeMeasure_cons]
        omega
      have hsrows : stRows (p :: ps)
          = stRows ((p :: ps).take (minIdxRowAux 0 p.1 1 (ps.map (fun q => q.1))).1) ++
            (((p :: ps)[(minIdxRowAux 0 p.1 1 (ps.map (fun q => q.1))).1]).1 ::
              ((p :: ps)[(minIdxRowAux 0 p.1 1 (ps.map (fun q => q.1))).1]).2) ++
            stRows ((p :: ps).drop
              ((minIdxRowAux 0 p.1 1 (ps.map (fun q => q.1))).1 + 1)) := by
        conv_lhs => rw [hdecomp]
        rw [stRows_append, stRows_cons]
        rw [List.append_assoc]
      cases hE2 : ((p :: ps)[(minIdxRowAux 0 p.1 1 (ps.map (fun q => q.1))).1]).2 with
      | nil =>
        dsimp only
        have herase := List.eraseIdx_eq_take_drop_succ (p :: ps)
          (minIdxRowAux 0 p.1 1 (ps.map (fun q => q.1))).1
        have hfuel' : mergeMeasure ((p :: ps).eraseIdx
            (minIdxRowAux 0 p.1 1 (ps.map (fun q => q.1))).1) ≤ fuel := by
          rw [herase, mergeMeasure_append]
          rw [hE2] at hmeas
          simp only [List.length_nil] at hmeas
          omega
        obtain ⟨ihperm, ihsort⟩ := ih _ hfuel'
        have hsub : ∀ q ∈ (p :: ps).eraseIdx
            (minIdxRowAux 0 p.1 1 (ps.map (fun q => q.1))).1, q ∈ p :: ps := by
          intro q hq
          rw [herase] at hq
          rcases List.mem_append.1 hq with hq | hq
          · exact List.take_subset _ _ hq
          · exact List.drop_subset _ _ hq
        constructor
        · rw [hsrows, hE2, hE, List.append_assoc, List.singleton_append]
          refine (ihperm.cons _).trans ?_
          rw [herase, stRows_append]
          exact List.perm_middle.symm
        · intro hsorted
          refine List.pairwise_cons.2 ⟨?_, ihsort (fun q hq => hsorted q (hsub q hq))⟩
          intro y hy
          have hy' := (ihperm.mem_iff).1 hy
          obtain ⟨q, hqmem, hyq⟩ := (stRows_mem _ y).1 hy'
          have hqst := hsub q hqmem
          have hqle : (minIdxRowAux 0 p.1 1 (ps.map (fun q => q.1))).2.1 ≤ q.1.1 :=
            rowLtBool_hash_le _ _ (hmin q hqst)
          rcases List.mem_cons.1 hyq with rfl | hyq
          · exact hqle
          · have := (List.pairwise_cons.1 (hsorted q hqst)).1 y hyq
            omega
      | cons x xs =>
        dsimp only
        have hset := List.set_eq_take_cons_drop (x, xs) hm
        have hfuel' : mergeMeasure ((p :: ps).set
            (minIdxRowAux 0 p.1 1 (ps.map (fun q => q.1))).1 (x, xs)) ≤ fuel := by
          rw [hset, mergeMeasure_append, mergeMeasure_cons]
          rw [hE2] at hmeas
          simp only [List.length_cons] at hmeas
          simp only
          omega
        obtain ⟨ihperm, ihsort⟩ := ih _ hfuel'
        have hEmem : (p :: ps)[(minIdxRowAux 0 p.1 1 (ps.map (fun q => q.1))).1]
            ∈ p :: ps := List.getElem_mem hm
        have hsub : ∀ q ∈ (p :: ps).set
            (minIdxRowAux 0 p.1 1 (ps.map (fun q => q.1))).1 (x, xs),
            q ∈ p :: ps ∨ q = (x, xs) := by
          intro q hq
          rw [hset] at hq
          rcases List.mem_append.1 hq with hq | hq
          · exact Or.inl (List.take_subset _ _ hq)
          · rcases List.mem_cons.1 hq with rfl | hq
            · exact Or.inr rfl
            · exact Or.inl (List.drop_subset _ _ hq)
        constructor
        · rw [hsrows, hE2, hE, List.append_assoc, List.cons_append]
          refine (ihperm.cons _).trans ?_
          rw [hset, stRows_append, stRows_cons]
          exact List.perm_middle.symm
        · intro hsorted
          have hEsorted := hsorted _ hEmem
          rw [hE2] at hEsorted
          have hxsorted : ((x, xs).1 :: (x, xs).2).Pairwise
              (fun a b : HRow => a.1 ≤ b.1) := (List.pairwise_cons.1 hEsorted).2
          refine List.pairwise_cons.2 ⟨?_, ihsort ?_⟩
          · intro y hy
            have hy' := (ihperm.mem_iff).1 hy
            obtain ⟨q, hqmem, hyq⟩ := (stRows_mem _ y).1 hy'
            rcases hsub q hqmem with hqst | rfl
            · have hqle : (minIdxRowAux 0 p.1 1 (ps.map (fun q => q.1))).2.1 ≤ q.1.1 :=
                rowLtBool_hash_le _ _ (hmin q hqst)
              rcases List.mem_cons.1 hyq with rfl | hyq
              · exact hqle
              · have := (List.pairwise_cons.1 (hsorted q hqst)).1 y hyq
                omega
            · -- y comes from the advanced entry: its row is ≥ the entry head
              have hyE : y ∈ (((p :: ps)[(minIdxRowAux 0 p.1 1
                  (ps.map (fun q => q.1))).1]).1 ::
                  ((p :: ps)[(minIdxRowAux 0 p.1 1 (ps.map (fun q => q.1))).1]).2) := by
                rw [hE2]
                exact List.mem_cons_of_mem _ hyq
              rcases List.mem_cons.1 hyE with hyE | hyE
              · rw [hyE, hE]
              · rw [hE2] at hyE
                have := (List.pairwise_cons.1 hEsorted).1 y hyE
                rw [hE] at this
                omega
          · intro q hq
            rcases hsub q hq with hqst | rfl
            · exact hsorted q hqst
            · exact hxsorted

theorem sorted_merged_rows_perm (dbs : List (List HRow)) :
    (sorted_merged_rows dbs).Perm dbs.flatten := by
  rw [sorted_merged_rows]
  have hcontents : stRows (dbs.filterMap
      (fun l => match l with | [] => none | x :: xs => some (x, xs))) = dbs.flatten := by
    induction dbs with
    | nil => rfl
    | cons l rest ih =>
      cases l with
      | nil =>
        rw [List.filterMap_cons]
        simpa using ih
      | cons x xs =>
        rw [List.filterMap_cons]
        simp only [List.flatten_cons]
        rw [stRows_cons]
        rw [ih]
  rw [← hcontents]
  exact (sortedMergedRowsGo_spec _ _ le_rfl).1

theorem sorted_merged_rows_sorted (dbs : List (List HRow))
    (h : ∀ f ∈ dbs, f.Pairwise (fun a b : HRow => a.1 ≤ b.1)) :
    (sorted_merged_rows dbs).Pairwise (fun a b : HRow => a.1 ≤ b.1) := by
  rw [sorted_merged_rows]
  refine (sortedMergedRowsGo_spec _ _ le_rfl).2 ?_
  intro q hq
  obtain ⟨f, hf, hfq⟩ := List.mem_filterMap.1 hq
  cases f with
  | nil => cases hfq
  | cons x xs =>
    cases hfq
    exact h _ hf

/-! ### `RowArrayDB` (`cdb/hashdb/row_array_db.py` lines 120-233)

The dict `_db_files` preserves insertion order; it is modelled as a list of
files (each file a sorted list of rows).  `new_db_name` only picks an unused
file name and does not affect the semantics, so paths are represented by
positions.  The `assert` at the end of `add_rows` is modelled as `none` on
failure. -/

structure RowArrayDB where
  db_files : List (List HRow)
  row_count : Nat
deriving DecidableEq

/-- `_select_db_files_to_merge`: below 10 files nothing is merged; otherwise
the two files with smallest `row_count` (Python's stable `sorted(...)[:2]`),
as (position, file) pairs. -/
def select_db_files_to_merge (db : RowArrayDB) : List (Nat × List HRow) :=
  if db.db_files.length < 10 then []
  else (sortStable (fun a b : Nat × List HRow => decide (a.2.length < b.2.length))
    db.db_files.enum).take 2

/-- `merge`: replace the two selected files by their stream-merge, appended
as the freshly created file (Python dict insertion order). -/
def forest_merge (db : RowArrayDB) : RowArrayDB :=
  match select_db_files_to_merge db with
  | [] => db
  | sel =>
    let merged := sorted_merged_rows (sel.map (fun p => p.2))
    let remaining := (db.db_files.enum.filter
      (fun p => decide (p.1 ∉ sel.map Prod.fst))).map Prod.snd
    { db_files := remaining ++ [merged], row_count := db.row_count }

/-- `add_rows`: sort the batch by hash (stable), create the new file at the
end, bump the cached count, run the merge policy, then assert that the
cached count matches the actual total. -/
def add_rows (db : RowArrayDB) (rows : List HRow) : Option RowArrayDB :=
  let sorted_rows := sortStable (fun a b : HRow => decide (a.1 < b.1)) rows
  let db1 : RowArrayDB :=
    { db_files := db.db_files ++ [sorted_rows],
      row_count := db.row_count + rows.length }
  let db2 := forest_merge db1
  if db2.row_count = (db2.db_files.map List.length).sum then some db2 else none

/-- One iteration of the `RowArrayDB.find_hashes` loop: skip once the
pending set is empty (the `break`), otherwise search the file and fold the
`found` pairs into the accumulator (`acc.update(found)`: newest first) and
keep the missing hashes as the new pending set. -/
def forest_find_step (acc_pending : List HRow × List Nat) (file : List HRow) :
    List HRow × List Nat :=
  if acc_pending.2 = [] then acc_pending
  else
    ((storage_find_hashes file acc_pending.2).1 ++ acc_pending.1,
      (storage_find_hashes file acc_pending.2).2)

/-- `RowArrayDB.find_hashes`: search each file in insertion order against the
still-pending queries; after the loop a non-empty pending set hits the
`breakpoint()` and then the `acc[h]` `KeyError`, modelled as `none`; on
success the result is `[(h, acc[h]) for h in hs]`, in query order. -/
def forest_find_hashes (db : RowArrayDB) (hs : List Nat) : Option (List HRow) :=
  if (db.db_files.foldl forest_find_step ([], hs)).2 = [] then
    hs.mapM (fun h =>
      (db.db_files.foldl forest_find_step ([], hs)).1.find? (fun r => r.1 = h))
  else none

theorem forest_fold_spec (files : List (List HRow)) :
    ∀ (acc : List HRow) (pending : List Nat),
      (∀ f ∈ files, f.Pairwise (fun a b : HRow => a.1 < b.1)) →
      (∀ h, h ∈ (files.foldl forest_find_step (acc, pending)).2 ↔
        (h ∈ pending ∧ ∀ f ∈ files, h ∉ f.map Prod.fst)) ∧
      (∀ r ∈ (files.foldl forest_find_step (acc, pending)).1,
        r ∈ acc ∨ ((∃ f ∈ files, r ∈ f) ∧ r.1 ∈ pending)) ∧
      (∀ h ∈ pending, h ∉ (files.foldl forest_find_step (acc, pending)).2 →
        ∃ r ∈ (files.foldl forest_find_step (acc, pending)).1, r.1 = h) ∧
      (∀ r ∈ acc, r ∈ (files.foldl forest_find_step (acc, pending)).1) := by
  induction files with
  | nil =>
    intro acc pending _
    refine ⟨fun h => ?_, fun r hr => Or.inl hr, fun h h1 h2 => absurd h1 h2, fun r hr => hr⟩
    simp
  | cons f fs ih =>
    intro acc pending hsort
    have hsortf : f.Pairwise (fun a b : HRow => a.1 < b.1) :=
      hsort f (List.mem_cons_self f fs)
    have hsortfs : ∀ g ∈ fs, g.Pairwise (fun a b : HRow => a.1 < b.1) :=
      fun g hg => hsort g (List.mem_cons_of_mem f hg)
    rw [List.foldl_cons]
    by_cases hp : pending = []
    · subst hp
      rw [forest_find_step, if_pos rfl]
      obtain ⟨ihA, ihB, ihC, ihD⟩ := ih acc [] hsortfs
      refine ⟨fun h => ?_, fun r hr => ?_, fun h h1 _ => absurd h1 (by simp), ihD⟩
      · rw [ihA h]
        simp
      · rcases ihB r hr with hr' | ⟨_, hr2⟩
        · exact Or.inl hr'
        · cases hr2
    · rw [forest_find_step, if_neg hp]
      obtain ⟨hC3f, hC3m⟩ := C3_per_file_find_hashes f pending hsortf
      obtain ⟨ihA, ihB, ihC, ihD⟩ := ih
        ((storage_find_hashes f pending).1 ++ acc) (storage_find_hashes f pending).2 hsortfs
      refine ⟨fun h => ?_, fun r hr => ?_, fun h h1 h2 => ?_, fun r hr => ?_⟩
      · rw [ihA h, hC3m h]
        simp only [List.forall_mem_cons]
        tauto
      · rcases ihB r hr with hr' | ⟨⟨g, hg, hrg⟩, hr2⟩
        · rcases List.mem_append.1 hr' with hr'' | hr''
          · obtain ⟨hrf, hrp⟩ := (hC3f r).1 hr''
            exact Or.inr ⟨⟨f, List.mem_cons_self f fs, hrf⟩, hrp⟩
          · exact Or.inl hr''
        · have := (hC3m r.1).1 hr2
          exact Or.inr ⟨⟨g, List.mem_cons_of_mem f hg, hrg⟩, this.1⟩
      · by_cases hm : h ∈ (storage_find_hashes f pending).2
        · exact ihC h hm h2
        · have hf : h ∈ f.map Prod.fst := by
            by_contra hnf
            exact hm ((hC3m h).2 ⟨h1, hnf⟩)
          obtain ⟨r, hrf, hrh⟩ := List.mem_map.1 hf
          have hrfound : r ∈ (storage_find_hashes f pending).1 :=
            (hC3f r).2 ⟨hrf, by rw [hrh]; exact h1⟩
          exact ⟨r, ihD r (List.mem_append.2 (Or.inl hrfound)), hrh⟩
      · exact ihD r (List.mem_append.2 (Or.inr hr))

theorem mapM_find_spec (acc : List HRow) : ∀ (hs : List Nat),
    (∀ h ∈ hs, ∃ r ∈ acc, r.1 = h) →
    ∃ l, hs.mapM (fun h => acc.find? (fun r => r.1 = h)) = some l ∧
      l.map Prod.fst = hs ∧ ∀ r ∈ l, r ∈ acc := by
  intro hs
  induction hs with
  | nil => exact fun _ => ⟨[], rfl, rfl, by simp⟩
  | cons h t ih =>
    intro hall
    obtain ⟨r0, hr0acc, hr0h⟩ := hall h (List.mem_cons_self h t)
    have hfind : ∃ r1, acc.find? (fun r => r.1 = h) = some r1 := by
      have : (acc.find? (fun r => decide (r.1 = h))).isSome := by
        rw [List.find?_isSome]
        exact ⟨r0, hr0acc, by simp [hr0h]⟩
      exact Option.isSome_iff_exists.1 this
    obtain ⟨r1, hr1⟩ := hfind
    have hr1acc : r1 ∈ acc := List.mem_of_find?_eq_some hr1
    have hr1h : r1.1 = h := by
      have := List.find?_some hr1
      simpa using this
    obtain ⟨l, hl, hlfst, hlacc⟩ := ih (fun x hx => hall x (List.mem_cons_of_mem h hx))
    refine ⟨r1 :: l, ?_, ?_, ?_⟩
    · rw [List.mapM_cons, hr1, hl]
      rfl
    · rw [List.map_cons, hlfst, hr1h]
    · intro r hr
      rcases List.mem_cons.1 hr with rfl | hr
      · exact hr1acc
      · exact hlacc r hr

/-- **C10** (forest-level lookup totality): `RowArrayDB.find_hashes(hs)`
searches the files in insertion order, subtracting already-found hashes; it
succeeds exactly when every queried hash is present in some file, and then
returns one `(hash, id)` pair per query, in the original query order, each
taken from a file of the forest; if any query is absent from all files the
call fails (`KeyError` on the final lookup) instead of returning a missing
set. -/
theorem C10_forest_lookup_totality (db : RowArrayDB) (hs : List Nat)
    (hsort : ∀ f ∈ db.db_files, f.Pairwise (fun a b : HRow => a.1 < b.1)) :
    ((forest_find_hashes db hs).isSome ↔
      ∀ h ∈ hs, ∃ f ∈ db.db_files, h ∈ f.map Prod.fst) ∧
    (∀ l, forest_find_hashes db hs = some l →
      l.map Prod.fst = hs ∧ ∀ r ∈ l, ∃ f ∈ db.db_files, r ∈ f) := by
  obtain ⟨hA, hB, hC, _⟩ := forest_fold_spec db.db_files [] hs hsort
  rw [forest_find_hashes]
  by_cases hL : (db.db_files.foldl forest_find_step ([], hs)).2 = []
  · rw [if_pos hL]
    have hall : ∀ h ∈ hs,
        ∃ r ∈ (db.db_files.foldl forest_find_step ([], hs)).1, r.1 = h := by
      intro h hh
      exact hC h hh (by rw [hL]; simp)
    obtain ⟨l, hl, hlfst, hlacc⟩ := mapM_find_spec _ hs hall
    rw [hl]
    constructor
    · simp only [Option.isSome_some, true_iff]
      intro h hh
      obtain ⟨r, hracc, hrh⟩ := hall h hh
      rcases hB r hracc with hr | ⟨⟨f, hf, hrf⟩, _⟩
      · cases hr
      · exact ⟨f, hf, by rw [← hrh]; exact List.mem_map_of_mem _ hrf⟩
    · intro l' hl'
      cases hl'
      refine ⟨hlfst, ?_⟩
      intro r hr
      rcases hB r (hlacc r hr) with hr' | ⟨⟨f, hf, hrf⟩, _⟩
      · cases hr'
      · exact ⟨f, hf, hrf⟩
  · rw [if_neg hL]
    constructor
    · constructor
      · intro hcon
        simp at hcon
      · intro hall
        exfalso
        obtain ⟨h0, hh0⟩ := List.exists_mem_of_ne_nil _ hL
        obtain ⟨hh0hs, hh0miss⟩ := (hA h0).1 hh0
        obtain ⟨f, hf, hmem⟩ := hall h0 hh0hs
        exact hh0miss f hf hmem
    · intro l hl
      cases hl

def forestRows (db : RowArrayDB) : List HRow := db.db_files.flatten

theorem perm_of_nodup_of_mem_iff {α : Type} {l₁ l₂ : List α}
    (h₁ : l₁.Nodup) (h₂ : l₂.Nodup) (h : ∀ x, x ∈ l₁ ↔ x ∈ l₂) : l₁.Perm l₂ :=
  List.Subperm.antisymm
    (List.subperm_of_subset h₁ (fun x hx => (h x).1 hx))
    (List.subperm_of_subset h₂ (fun x hx => (h x).2 hx))

theorem pairwise_fst_injective {α : Type} (E : List (Nat × α))
    (h : E.Pairwise (fun a b => a.1 ≠ b.1)) :
    ∀ a ∈ E, ∀ b ∈ E, a.1 = b.1 → a = b := by
  intro a ha b hb hab
  obtain ⟨i, hi, rfl⟩ := List.getElem_of_mem ha
  obtain ⟨j, hj, rfl⟩ := List.getElem_of_mem hb
  rcases Nat.lt_trichotomy i j with hij | rfl | hij
  · exact absurd hab ((List.pairwise_iff_getElem.1 h) i j hi hj hij)
  · rfl
  · exact absurd hab.symm ((List.pairwise_iff_getElem.1 h) j i hj hi hij)

theorem enum_nodup_fst (l : List (List HRow)) :
    l.enum.Pairwise (fun a b => a.1 ≠ b.1) := by
  have h1 : (l.enum.map Prod.fst).Nodup := by
    rw [List.enum_map_fst]
    exact List.nodup_range _
  exact List.pairwise_map.1 h1

theorem select_partition (db : RowArrayDB) (sel : List (Nat × List HRow))
    (hsel : select_db_files_to_merge db = sel) :
    (sel ++ db.db_files.enum.filter
      (fun p => decide (p.1 ∉ sel.map Prod.fst))).Perm db.db_files.enum := by
  rw [select_db_files_to_merge] at hsel
  split at hsel
  · subst hsel
    rw [List.nil_append]
    have : ∀ p ∈ db.db_files.enum,
        (fun p : Nat × List HRow => decide (p.1 ∉ List.map Prod.fst ([] : List (Nat × List HRow)))) p = true := by
      intro p _
      simp
    rw [List.filter_eq_self.2 this]
  · have hEnodup : db.db_files.enum.Nodup :=
      (enum_nodup_fst db.db_files).imp (fun hne heq => hne (congrArg Prod.fst heq))
    have hSperm : (sortStable (fun a b : Nat × List HRow => decide (a.2.length < b.2.length))
        db.db_files.enum).Perm db.db_files.enum :=
      sortStable_perm _ _
    have hSnodup := hSperm.nodup_iff.2 hEnodup
    have hsplit : sel ++ (sortStable (fun a b : Nat × List HRow =>
        decide (a.2.length < b.2.length)) db.db_files.enum).drop 2
        = sortStable (fun a b : Nat × List HRow => decide (a.2.length < b.2.length))
          db.db_files.enum := by
      rw [← hsel]
      exact List.take_append_drop 2 _
    have hdisj : ∀ x, x ∈ (sortStable (fun a b : Nat × List HRow =>
        decide (a.2.length < b.2.length)) db.db_files.enum).drop 2 → x ∉ sel := by
      intro x hx hxsel
      rw [← hsplit] at hSnodup
      obtain ⟨-, -, hd⟩ := List.nodup_append.1 hSnodup
      exact hd hxsel hx
    have hselsub : ∀ x ∈ sel, x ∈ db.db_files.enum := by
      intro x hx
      refine hSperm.subset ?_
      rw [← hsplit]
      exact List.mem_append.2 (Or.inl hx)
    have hmemiff : ∀ x, x ∈ db.db_files.enum.filter
        (fun p => decide (p.1 ∉ sel.map Prod.fst)) ↔
        x ∈ (sortStable (fun a b : Nat × List HRow =>
          decide (a.2.length < b.2.length)) db.db_files.enum).drop 2 := by
      intro x
      rw [List.mem_filter, decide_eq_true_eq]
      constructor
      · rintro ⟨hxE, hxf⟩
        have hxS := (hSperm.mem_iff).2 hxE
        rw [← hsplit] at hxS
        rcases List.mem_append.1 hxS with hx | hx
        · exact absurd (List.mem_map_of_mem _ hx) hxf
        · exact hx
      · intro hx
        have hxS : x ∈ sortStable (fun a b : Nat × List HRow =>
            decide (a.2.length < b.2.length)) db.db_files.enum := by
          rw [← hsplit]
          exact List.mem_append.2 (Or.inr hx)
        refine ⟨hSperm.mem_iff.1 hxS, ?_⟩
        intro hxm
        obtain ⟨y, hy, hyx⟩ := List.mem_map.1 hxm
        have hyE := hselsub y hy
        have hxE := hSperm.mem_iff.1 hxS
        have : y = x := pairwise_fst_injective _ (enum_nodup_fst db.db_files) y hyE x hxE hyx
        subst this
        exact hdisj y hx hy
    have hFperm : (db.db_files.enum.filter
        (fun p => decide (p.1 ∉ sel.map Prod.fst))).Perm
        ((sortStable (fun a b : Nat × List HRow =>
          decide (a.2.length < b.2.length)) db.db_files.enum).drop 2) := by
      refine perm_of_nodup_of_mem_iff ?_ ?_ hmemiff
      · exact (List.filter_sublist _).nodup hEnodup
      · exact (List.drop_sublist 2 _).nodup hSnodup
    refine (List.Perm.append_left sel hFperm).trans ?_
    rw [hsplit]
    exact hSperm

theorem forest_merge_spec (db : RowArrayDB) :
    (forest_merge db).row_count = db.row_count ∧
    (forestRows (forest_merge db)).Perm (forestRows db) ∧
    ((∀ f ∈ db.db_files, f.Pairwise (fun a b : HRow => a.1 ≤ b.1)) →
      ∀ f ∈ (forest_merge db).db_files,
        f.Pairwise (fun a b : HRow => a.1 ≤ b.1)) := by
  unfold forest_merge
  cases hsel : select_db_files_to_merge db with
  | nil => exact ⟨rfl, List.Perm.refl _, fun h => h⟩
  | cons s ss =>
    dsimp only
    have hpart := select_partition db (s :: ss) hsel
    have hselsubE : ∀ x ∈ s :: ss, x ∈ db.db_files.enum := by
      intro x hx
      exact hpart.subset (List.mem_append.2 (Or.inl hx))
    have hselfiles : ∀ x ∈ s :: ss, x.2 ∈ db.db_files := by
      intro x hx
      have := List.mem_map_of_mem Prod.snd (hselsubE x hx)
      rwa [List.enum_map_snd] at this
    refine ⟨rfl, ?_, ?_⟩
    · -- contents are preserved up to permutation
      rw [forestRows, forestRows]
      simp only [List.flatten_append, List.flatten_cons, List.flatten_nil,
        List.append_nil]
      have hmerged := sorted_merged_rows_perm ((s :: ss).map (fun p => p.2))
      refine (List.Perm.append_left _ hmerged).trans ?_
      have hflat : ((db.db_files.enum.filter
            (fun p => decide (p.1 ∉ (s :: ss).map Prod.fst))).map Prod.snd).flatten ++
            (((s :: ss).map (fun p => p.2)).flatten)
          = ((db.db_files.enum.filter
            (fun p => decide (p.1 ∉ (s :: ss).map Prod.fst)) ++ (s :: ss)).map
              Prod.snd).flatten := by
        rw [List.map_append, List.flatten_append]
      rw [hflat]
      have hp2 : (db.db_files.enum.filter
            (fun p => decide (p.1 ∉ (s :: ss).map Prod.fst)) ++ (s :: ss)).Perm
          db.db_files.enum :=
        (List.perm_append_comm).trans hpart
      have := (hp2.map Prod.snd).flatten
      rwa [List.enum_map_snd] at this
    · intro hsorted f hf
      rcases List.mem_append.1 hf with hf | hf
      · obtain ⟨p, hp, rfl⟩ := List.mem_map.1 hf
        have hpE : p ∈ db.db_files.enum := List.mem_of_mem_filter hp
        have : p.2 ∈ db.db_files := by
          have := List.mem_map_of_mem Prod.snd hpE
          rwa [List.enum_map_snd] at this
        exact hsorted _ this
      · rw [List.mem_singleton] at hf
        subst hf
        refine sorted_merged_rows_sorted _ ?_
        intro g hg
        obtain ⟨p, hp, rfl⟩ := List.mem_map.1 hg
        exact hsorted _ (hselfiles p hp)

theorem add_rows_spec (db : RowArrayDB) (rows : List HRow)
    (hcount : db.row_count = (db.db_files.map List.length).sum) :
    ∃ db', add_rows db rows = some db' ∧
      db'.row_count = db.row_count + rows.length ∧
      db'.row_count = (db'.db_files.map List.length).sum ∧
      (forestRows db').Perm (forestRows db ++ rows) ∧
      ((∀ f ∈ db.db_files, f.Pairwise (fun a b : HRow => a.1 ≤ b.1)) →
        ∀ f ∈ db'.db_files, f.Pairwise (fun a b : HRow => a.1 ≤ b.1)) := by
  obtain ⟨hmc, hmp, hms⟩ := forest_merge_spec
    ⟨db.db_files ++ [sortStable (fun a b : HRow => decide (a.1 < b.1)) rows],
      db.row_count + rows.length⟩
  have hsortperm := sortStable_perm (fun a b : HRow => decide (a.1 < b.1)) rows
  have hrows1 : forestRows
      (⟨db.db_files ++ [sortStable (fun a b : HRow => decide (a.1 < b.1)) rows],
        db.row_count + rows.length⟩ : RowArrayDB)
      = forestRows db ++ sortStable (fun a b : HRow => decide (a.1 < b.1)) rows := by
    rw [forestRows, forestRows]
    simp [List.flatten_append]
  have h2 : (forestRows db).length = db.row_count := by
    rw [forestRows, List.length_flatten, ← hcount]
  have hcond : (forest_merge
      ⟨db.db_files ++ [sortStable (fun a b : HRow => decide (a.1 < b.1)) rows],
        db.row_count + rows.length⟩).row_count
      = ((forest_merge
      ⟨db.db_files ++ [sortStable (fun a b : HRow => decide (a.1 < b.1)) rows],
        db.row_count + rows.length⟩).db_files.map List.length).sum := by
    rw [hmc]
    rw [show ((forest_merge
        ⟨db.db_files ++ [sortStable (fun a b : HRow => decide (a.1 < b.1)) rows],
          db.row_count + rows.length⟩).db_files.map List.length).sum
      = (forestRows (forest_merge
        ⟨db.db_files ++ [sortStable (fun a b : HRow => decide (a.1 < b.1)) rows],
          db.row_count + rows.length⟩)).length from (List.length_flatten _).symm]
    rw [hmp.length_eq, hrows1, List.length_append, hsortperm.length_eq, h2]
  refine ⟨forest_merge
      ⟨db.db_files ++ [sortStable (fun a b : HRow => decide (a.1 < b.1)) rows],
        db.row_count + rows.length⟩, ?_, ?_, ?_, ?_, ?_⟩
  · rw [add_rows]
    rw [if_pos hcond]
  · exact hmc
  · exact hcond
  · refine hmp.trans ?_
    rw [hrows1]
    exact List.Perm.append_left _ hsortperm
  · intro hsorted
    refine hms ?_
    intro f hf
    rcases List.mem_append.1 hf with hf | hf
    · exact hsorted f hf
    · rw [List.mem_singleton] at hf
      subst hf
      exact sortStable_pairwise_hashLe rows

/-- Iterated `add_rows`, as in "after any sequence `add_rows(b₁), …`". -/
def add_rows_seq (db : RowArrayDB) : List (List HRow) → Option RowArrayDB
  | [] => some db
  | b :: bs =>
    match add_rows db b with
    | none => none
    | some db' => add_rows_seq db' bs

theorem add_rows_seq_spec : ∀ (batches : List (List HRow)) (db : RowArrayDB),
    db.row_count = (db.db_files.map List.length).sum →
    (∀ f ∈ db.db_files, f.Pairwise (fun a b : HRow => a.1 ≤ b.1)) →
    ((forestRows db ++ batches.flatten).map Prod.fst).Nodup →
    ∃ db', add_rows_seq db batches = some db' ∧
      db'.row_count = db.row_count + (batches.map List.length).sum ∧
      db'.row_count = (db'.db_files.map List.length).sum ∧
      (∀ f ∈ db'.db_files, f.Pairwise (fun a b : HRow => a.1 ≤ b.1)) ∧
      (forestRows db').Perm (forestRows db ++ batches.flatten) := by
  intro batches
  induction batches with
  | nil =>
    intro db hcount hsorted _
    refine ⟨db, rfl, by simp, hcount, hsorted, ?_⟩
    simp
  | cons b bs ih =>
    intro db hcount hsorted hnodup
    obtain ⟨db1, hdb1, hc1, hc1', hp1, hs1⟩ := add_rows_spec db b hcount
    have hp1' : ((forestRows db1 ++ bs.flatten).map Prod.fst).Perm
        ((forestRows db ++ (b :: bs).flatten).map Prod.fst) := by
      refine List.Perm.map _ ?_
      refine (List.Perm.append_right _ hp1).trans ?_
      rw [List.flatten_cons, ← List.append_assoc]
    have hnodup1 : ((forestRows db1 ++ bs.flatten).map Prod.fst).Nodup :=
      (hp1'.nodup_iff).2 hnodup
    obtain ⟨db', hdb', hc', hc'', hs', hp'⟩ := ih db1 hc1' (hs1 hsorted) hnodup1
    refine ⟨db', ?_, ?_, hc'', hs', ?_⟩
    · rw [add_rows_seq, hdb1]
      exact hdb'
    · rw [hc', hc1]
      simp only [List.map_cons, List.sum_cons]
      omega
    · refine hp'.trans ?_
      refine (List.Perm.append_right _ hp1).trans ?_
      rw [List.flatten_cons, ← List.append_assoc]

/-- Strict per-file sortedness from weak sortedness plus globally distinct
hashes. -/
theorem forest_files_strictly_sorted (db : RowArrayDB)
    (hsorted : ∀ f ∈ db.db_files, f.Pairwise (fun a b : HRow => a.1 ≤ b.1))
    (hnodup : ((forestRows db).map Prod.fst).Nodup) :
    ∀ f ∈ db.db_files, f.Pairwise (fun a b : HRow => a.1 < b.1) := by
  intro f hf
  have hsub : f.Sublist (forestRows db) := List.sublist_flatten_of_mem hf
  have hfn : (f.map Prod.fst).Nodup := (hsub.map Prod.fst).nodup hnodup
  have hne : f.Pairwise (fun a b : HRow => a.1 ≠ b.1) := List.pairwise_map.1 hfn
  have := (hsorted f hf).and hne
  exact this.imp (fun h => by omega)

/-- **C2** (forest conservation): for every forest state whose cached count
matches its files and every batch, `add_rows(batch)` returns (its final
`assert` passes) with the total row count equal to the old total plus
`|batch|`, even when merges fire; and for every sequence of batches with
globally distinct hashes, starting from an empty forest, the total row count
equals the sum of the batch sizes and looking up the union of all added
hashes finds every added `(hash, id)` pair. -/
theorem C2_forest_conservation :
    (∀ (db : RowArrayDB) (batch : List HRow),
      db.row_count = (db.db_files.map List.length).sum →
      ∃ db', add_rows db batch = some db' ∧
        db'.row_count = db.row_count + batch.length ∧
        db'.row_count = (db'.db_files.map List.length).sum) ∧
    (∀ batches : List (List HRow),
      ((batches.flatten).map Prod.fst).Nodup →
      ∃ db', add_rows_seq ⟨[], 0⟩ batches = some db' ∧
        db'.row_count = (batches.map List.length).sum ∧
        ∃ l, forest_find_hashes db' ((batches.flatten).map Prod.fst) = some l ∧
          ∀ r ∈ batches.flatten, r ∈ l) := by
  constructor
  · intro db batch hcount
    obtain ⟨db', h1, h2, h3, -, -⟩ := add_rows_spec db batch hcount
    exact ⟨db', h1, h2, h3⟩
  · intro batches hnodup
    obtain ⟨db', hseq, hc, hc', hsorted, hperm⟩ :=
      add_rows_seq_spec batches ⟨[], 0⟩ rfl (by simp) (by simpa [forestRows] using hnodup)
    have hpermflat : (forestRows db').Perm batches.flatten := by
      simpa [forestRows] using hperm
    have hnodup' : ((forestRows db').map Prod.fst).Nodup :=
      ((hpermflat.map Prod.fst).nodup_iff).2 hnodup
    have hstrict := forest_files_strictly_sorted db' hsorted hnodup'
    obtain ⟨hiff, hsome⟩ := C10_forest_lookup_totality db'
      ((batches.flatten).map Prod.fst) hstrict
    have hall : ∀ h ∈ (batches.flatten).map Prod.fst,
        ∃ f ∈ db'.db_files, h ∈ f.map Prod.fst := by
      intro h hh
      obtain ⟨r, hr, rfl⟩ := List.mem_map.1 hh
      have hrdb : r ∈ forestRows db' := (hpermflat.mem_iff).2 hr
      obtain ⟨f, hfm, hrf⟩ := List.mem_flatten.1 hrdb
      exact ⟨f, hfm, List.mem_map_of_mem _ hrf⟩
    obtain ⟨l, hl⟩ := Option.isSome_iff_exists.1 (hiff.2 hall)
    obtain ⟨hlfst, hlmem⟩ := hsome l hl
    refine ⟨db', hseq, by simpa using hc, l, hl, ?_⟩
    intro r hr
    have hrkey : r.1 ∈ l.map Prod.fst := by
      rw [hlfst]
      exact List.mem_map_of_mem _ hr
    obtain ⟨r', hr'l, hr'key⟩ := List.mem_map.1 hrkey
    obtain ⟨f, hfm, hr'f⟩ := hlmem r' hr'l
    have hr'flat : r' ∈ batches.flatten := by
      refine (hpermflat.mem_iff).1 ?_
      exact List.mem_flatten.2 ⟨f, hfm, hr'f⟩
    have : r' = r := by
      refine pairwise_fst_injective batches.flatten ?_ r' hr'flat r hr hr'key
      exact List.pairwise_map.1 hnodup
    rwa [← this]

/-- Witness for C2: a two-row batch into an empty forest, and a sequence of
ten singleton batches (the tenth `add_rows` reaches ten files and fires the
merge policy). -/
theorem C2_forest_conservation_witness :
    (∃ db', add_rows ⟨[], 0⟩ [(5, 50), (3, 30)] = some db' ∧
      db'.row_count = (⟨[], 0⟩ : RowArrayDB).row_count +
        ([(5, 50), (3, 30)] : List HRow).length ∧
      db'.row_count = (db'.db_files.map List.length).sum) ∧
    (∃ db', add_rows_seq ⟨[], 0⟩
        [[(1, 101)], [(2, 102)], [(3, 103)], [(4, 104)], [(5, 105)],
         [(6, 106)], [(7, 107)], [(8, 108)], [(9, 109)], [(10, 110)]]
        = some db' ∧
      db'.row_count = (([[(1, 101)], [(2, 102)], [(3, 103)], [(4, 104)], [(5, 105)],
         [(6, 106)], [(7, 107)], [(8, 108)], [(9, 109)], [(10, 110)]] :
          List (List HRow)).map List.length).sum ∧
      ∃ l, forest_find_hashes db'
          ((([[(1, 101)], [(2, 102)], [(3, 103)], [(4, 104)], [(5, 105)],
            [(6, 106)], [(7, 107)], [(8, 108)], [(9, 109)], [(10, 110)]] :
              List (List HRow)).flatten).map Prod.fst) = some l ∧
        ∀ r ∈ ([[(1, 101)], [(2, 102)], [(3, 103)], [(4, 104)], [(5, 105)],
            [(6, 106)], [(7, 107)], [(8, 108)], [(9, 109)], [(10, 110)]] :
              List (List HRow)).flatten, r ∈ l) := by
  exact ⟨C2_forest_conservation.1 ⟨[], 0⟩ [(5, 50), (3, 30)] rfl,
    C2_forest_conservation.2 _ (by decide)⟩

/-- Witness for C10: a two-file forest where queries `[2, 3]` all resolve
(`isSome`) while the query `[5]`, absent from both files, fails. -/
theorem C10_forest_lookup_totality_witness :
    (forest_find_hashes ⟨[[(1, 10), (3, 30)], [(2, 20)]], 3⟩ [2, 3]).isSome ∧
    forest_find_hashes ⟨[[(1, 10), (3, 30)], [(2, 20)]], 3⟩ [5] = none := by
  have hsort : ∀ f ∈ ([[(1, 10), (3, 30)], [(2, 20)]] : List (List HRow)),
      f.Pairwise (fun a b : HRow => a.1 < b.1) := by decide
  constructor
  · exact (C10_forest_lookup_totality ⟨[[(1, 10), (3, 30)], [(2, 20)]], 3⟩
      [2, 3] hsort).1.2 (by decide)
  · have hnot : ¬ (forest_find_hashes ⟨[[(1, 10), (3, 30)], [(2, 20)]], 3⟩ [5]).isSome := by
      rw [(C10_forest_lookup_totality ⟨[[(1, 10), (3, 30)], [(2, 20)]], 3⟩ [5] hsort).1]
      decide
    cases hfe : forest_find_hashes ⟨[[(1, 10), (3, 30)], [(2, 20)]], 3⟩ [5] with
    | none => rfl
    | some l =>
      rw [hfe] at hnot
      simp at hnot

/-! ## Topological sort (`cdb/schema.py` lines 83-123)

`visit` carries the `result` / `visited` / `temp_marked` state of the Python
closure; `none` models the `ValueError("Cycle detected …")`.  The recursion
depth of `visit` is the number of distinct temp-marked nodes on the stack;
at the call site every dependency is another confirm of the same block, so
`objects.length + 1` fuel per top-level call is sufficient (proved below for
the cases the pipeline theorems need). -/

structure TopoSt (T : Type) where
  result : List T
  visited : List T
  temp_marked : List T
deriving DecidableEq

/-- The DFS of `topological_sort`, as one worklist recursion: visiting a
list of nodes in order is both the top-level `for obj in objects` loop and
the `for dependency in fetch_dependencies(node)` loop of `visit`, so the two
nested Python loops become one function.  Every call consumes one unit of
fuel; the wrapper passes fuel that is provably sufficient whenever the
dependency lists stay inside the object set (the pipeline call site), and
`none` models both the `ValueError("Cycle detected …")` and a too-deep
recursion. -/
def topo_visit_many {T : Type} [DecidableEq T] (deps : T → List T) :
    Nat → List T → TopoSt T → Option (TopoSt T)
  | _, [], st => some st
  | 0, _ :: _, _ => none
  | fuel + 1, node :: rest, st =>
    if node ∈ st.temp_marked then none
    else if node ∈ st.visited then topo_visit_many deps fuel rest st
    else
      match topo_visit_many deps fuel (deps node)
          { st with temp_marked := node :: st.temp_marked } with
      | none => none
      | some st2 =>
          topo_visit_many deps fuel rest
            { result := st2.result ++ [node],
              visited := node :: st2.visited,
              temp_marked := st2.temp_marked.erase node }

/-- `topological_sort`: run the DFS over all objects from the empty state.
`2 * objects.length + 1` fuel covers one unit per worklist cell: at most
`objects.length` top-level cells plus one dependency cell per distinct
node expanded, when dependencies point back into `objects` (as at the
pipeline call site, where a dependency is another confirm of the block). -/
def topological_sort {T : Type} [DecidableEq T]
    (objects : List T) (deps : T → List T) : Option (List T) :=
  (topo_visit_many deps (2 * objects.length + 1) objects ⟨[], [], []⟩).map
    TopoSt.result

/-- The DFS state invariant: `visited` mirrors the contents of `result`,
`result` has no duplicates, and every dependency of a result entry appears
earlier in `result`. -/
def TopoGood {T : Type} (deps : T → List T) (st : TopoSt T) : Prop :=
  (∀ x, x ∈ st.visited ↔ x ∈ st.result) ∧
  st.result.Nodup ∧
  (∀ i, (hi : i < st.result.length) → ∀ d ∈ deps st.result[i],
    ∃ j, ∃ hj : j < st.result.length, j < i ∧ st.result[j] = d)

theorem topo_visit_many_spec {T : Type} [DecidableEq T] (deps : T → List T) :
    ∀ (fuel : Nat) (nodes : List T) (st st' : TopoSt T),
      topo_visit_many deps fuel nodes st = some st' →
      TopoGood deps st →
      TopoGood deps st' ∧
      (∀ n ∈ nodes, n ∈ st'.visited) ∧
      st'.temp_marked = st.temp_marked ∧
      (∃ new, st'.result = st.result ++ new) ∧
      (∀ x ∈ st'.visited, x ∈ st.visited ∨ x ∉ st.temp_marked) ∧
      (∀ x ∈ st.visited, x ∈ st'.visited) := by
  intro fuel
  induction fuel with
  | zero =>
    intro nodes st st' hrun hgood
    cases nodes with
    | nil =>
      cases hrun
      exact ⟨hgood, by simp, rfl, ⟨[], by simp⟩, fun x hx => Or.inl hx, fun x hx => hx⟩
    | cons n rest => cases hrun
  | succ fuel ih =>
    intro nodes st st' hrun hgood
    cases nodes with
    | nil =>
      cases hrun
      exact ⟨hgood, by simp, rfl, ⟨[], by simp⟩, fun x hx => Or.inl hx, fun x hx => hx⟩
    | cons n rest =>
      rw [topo_visit_many] at hrun
      split at hrun
      · cases hrun
      · split at hrun
        case isTrue hvis =>
          obtain ⟨hg, h2, h3, h4, h5, h6⟩ := ih rest st st' hrun hgood
          refine ⟨hg, ?_, h3, h4, h5, h6⟩
          intro m hm
          rcases List.mem_cons.1 hm with rfl | hm
          · exact h6 m hvis
          · exact h2 m hm
        case isFalse hvis =>
          rename_i htemp
          cases hdesc : topo_visit_many deps fuel (deps n)
              { st with temp_marked := n :: st.temp_marked } with
          | none =>
            rw [hdesc] at hrun
            cases hrun
          | some st2 =>
            rw [hdesc] at hrun
            obtain ⟨hg2, hdeps2, htemp2, ⟨new1, hres2⟩, h52, h62⟩ :=
              ih (deps n) _ st2 hdesc hgood
            have hnotres : n ∉ st2.result := by
              intro hmem
              have := (hg2.1 n).2 hmem
              rcases h52 n this with hv | ht
              · exact hvis hv
              · exact ht (List.mem_cons_self n st.temp_marked)
            have hgoodNew : TopoGood deps
                ⟨st2.result ++ [n], n :: st2.visited, st2.temp_marked.erase n⟩ := by
              refine ⟨?_, ?_, ?_⟩
              · intro x
                simp only [List.mem_cons, List.mem_append, List.mem_singleton]
                rw [hg2.1 x]
                tauto
              · refine List.Nodup.append hg2.2.1 (by simp) ?_
                intro a ha hb
                rw [List.mem_singleton] at hb
                subst hb
                exact hnotres ha
              · intro i hi d hd
                simp only [List.length_append, List.length_singleton] at hi
                rcases Nat.lt_or_ge i st2.result.length with hilt | hige
                · rw [List.getElem_append_left hilt] at hd
                  obtain ⟨j, hj, hji, hjeq⟩ := hg2.2.2 i hilt d hd
                  refine ⟨j, by simp; omega, hji, ?_⟩
                  rw [List.getElem_append_left hj]
                  exact hjeq
                · have hieq : i = st2.result.length := by omega
                  subst hieq
                  rw [List.getElem_concat_length st2.result n _ rfl] at hd
                  have hdvis : d ∈ st2.visited := hdeps2 d hd
                  have hdres : d ∈ st2.result := (hg2.1 d).1 hdvis
                  obtain ⟨j, hj, hjeq⟩ := List.getElem_of_mem hdres
                  refine ⟨j, by simp; omega, by omega, ?_⟩
                  rw [List.getElem_append_left hj]
                  exact hjeq
            obtain ⟨hg', h2', h3', ⟨new2, hres'⟩, h5', h6'⟩ :=
              ih rest _ st' hrun hgoodNew
            refine ⟨hg', ?_, ?_, ?_, ?_, ?_⟩
            · intro m hm
              rcases List.mem_cons.1 hm with rfl | hm
              · exact h6' m (List.mem_cons_self m st2.visited)
              · exact h2' m hm
            · rw [h3']
              simp only [htemp2]
              exact List.erase_cons_head n st.temp_marked
            · exact ⟨new1 ++ [n] ++ new2, by
                rw [hres']
                simp only [hres2]
                simp [List.append_assoc]⟩
            · intro x hx
              rcases h5' x hx with hx' | hx'
              · rcases List.mem_cons.1 hx' with rfl | hx''
                · exact Or.inr htemp
                · rcases h52 x hx'' with hv | ht
                  · exact Or.inl hv
                  · refine Or.inr ?_
                    intro hmem
                    exact ht (List.mem_cons_of_mem n hmem)
              · rw [htemp2] at hx'
                refine Or.inr ?_
                intro hmem
                have : x ∈ (n :: st.temp_marked).erase n := by
                  rw [List.erase_cons_head]
                  exact hmem
                exact hx' this
            · intro x hx
              exact h6' x (List.mem_cons_of_mem n (h62 x hx))

theorem topological_sort_spec {T : Type} [DecidableEq T] (objects : List T) (deps : T → List T)
    (l : List T) (hrun : topological_sort objects deps = some l) :
    l.Nodup ∧ (∀ x ∈ objects, x ∈ l) ∧
    (∀ i, (hi : i < l.length) → ∀ d ∈ deps l[i],
      ∃ j, ∃ hj : j < l.length, j < i ∧ l[j] = d) := by
  unfold topological_sort at hrun
  cases hvm : topo_visit_many deps (2 * objects.length + 1) objects ⟨[], [], []⟩ with
  | none => rw [hvm] at hrun; cases hrun
  | some st' =>
    rw [hvm] at hrun
    have hgood0 : TopoGood deps (⟨[], [], []⟩ : TopoSt T) := by
      refine ⟨fun x => by simp, List.nodup_nil, ?_⟩
      intro i hi
      simp at hi
    obtain ⟨hg, h2, _, _, _, _⟩ :=
      topo_visit_many_spec deps (2 * objects.length + 1) objects _ st' hvm hgood0
    cases hrun
    exact ⟨hg.2.1, fun x hx => (hg.1 x).1 (h2 x hx), hg.2.2⟩

theorem topological_sort_dep_before {T : Type} [DecidableEq T] (objects : List T)
    (deps : T → List T) (l : List T) (hrun : topological_sort objects deps = some l)
    (l₁ l₂ : List T) (c : T) (hsplit : l = l₁ ++ c :: l₂) :
    ∀ d ∈ deps c, d ∈ l₁ := by
  intro d hd
  obtain ⟨hnd, _, hdc⟩ := topological_sort_spec objects deps l hrun
  subst hsplit
  have hi : l₁.length < (l₁ ++ c :: l₂).length := by simp
  have hci : (l₁ ++ c :: l₂)[l₁.length] = c := by
    rw [List.getElem_append_right (Nat.le_refl l₁.length)]
    simp
  obtain ⟨j, hj, hji, hjd⟩ := hdc l₁.length hi d (by rw [hci]; exact hd)
  have hjl : (l₁ ++ c :: l₂)[j] ∈ l₁ := by
    rw [List.getElem_append_left hji]
    exact List.getElem_mem _
  rw [hjd] at hjl
  exact hjl

theorem topological_sort_acyclic {T : Type} [DecidableEq T] (objects : List T)
    (deps : T → List T) (l : List T) (hrun : topological_sort objects deps = some l)
    (c : T) (hc : c ∈ objects)
    (hcyc : Relation.TransGen (fun a b => a ∈ deps b) c c) : False := by
  obtain ⟨hnd, hall, hdc⟩ := topological_sort_spec objects deps l hrun
  have hedge : ∀ a b : T, a ∈ deps b → b ∈ l → a ∈ l ∧ l.indexOf a < l.indexOf b := by
    intro a b hab hbl
    have hbi : l.indexOf b < l.length := List.indexOf_lt_length.mpr hbl
    have hbeq : l[l.indexOf b] = b := List.getElem_indexOf hbi
    obtain ⟨j, hj, hji, hjd⟩ := hdc (l.indexOf b) hbi a (by rw [hbeq]; exact hab)
    have hal : a ∈ l := hjd ▸ List.getElem_mem hj
    have hai : l.indexOf a < l.length := List.indexOf_lt_length.mpr hal
    have : l.indexOf a = j := by
      have haeq : l[l.indexOf a] = a := List.getElem_indexOf hai
      exact (List.Nodup.getElem_inj_iff hnd).mp (by rw [haeq, hjd])
    exact ⟨hal, by omega⟩
  have hcl : c ∈ l := hall c hc
  have key : ∀ a b : T, Relation.TransGen (fun x y => x ∈ deps y) a b →
      b ∈ l → a ∈ l ∧ l.indexOf a < l.indexOf b := by
    intro a b h
    induction h with
    | single hab => intro hbl; exact hedge _ _ hab hbl
    | tail _ hbc ih =>
      intro hbl
      obtain ⟨hyl, hyi⟩ := hedge _ _ hbc hbl
      obtain ⟨hal, hai⟩ := ih hyl
      exact ⟨hal, by omega⟩
  have := (key c c hcyc hcl).2
  omega

theorem topo_no_deps {T : Type} [DecidableEq T] (deps : T → List T) :
    ∀ (objs : List T) (fuel : Nat) (st : TopoSt T),
      (∀ c ∈ objs, deps c = []) → objs.length ≤ fuel →
      (∀ x ∈ objs, x ∉ st.visited) → (∀ x ∈ objs, x ∉ st.temp_marked) → objs.Nodup →
      topo_visit_many deps fuel objs st =
        some ⟨st.result ++ objs, objs.reverse ++ st.visited, st.temp_marked⟩ := by
  intro objs
  induction objs with
  | nil =>
    intro fuel st _ _ _ _ _
    cases fuel with
    | zero => simp [topo_visit_many]
    | succ fuel => simp [topo_visit_many]
  | cons n rest ih =>
    intro fuel st hdeps hfuel hvis htemp hnd
    cases fuel with
    | zero => simp at hfuel
    | succ fuel =>
      rw [topo_visit_many]
      rw [if_neg (htemp n (List.mem_cons_self n rest))]
      rw [if_neg (hvis n (List.mem_cons_self n rest))]
      rw [hdeps n (List.mem_cons_self n rest)]
      have hinner : topo_visit_many deps fuel []
          { st with temp_marked := n :: st.temp_marked } =
          some { st with temp_marked := n :: st.temp_marked } := by
        cases fuel with
        | zero => simp [topo_visit_many]
        | succ fuel => simp [topo_visit_many]
      rw [hinner]
      dsimp only
      have hrest := ih fuel
        ⟨st.result ++ [n], n :: st.visited, (n :: st.temp_marked).erase n⟩
        (fun c hc => hdeps c (List.mem_cons_of_mem n hc))
        (by simp at hfuel; omega)
        (by
          intro x hx
          simp only [List.mem_cons]
          push_neg
          constructor
          · intro hxn
            subst hxn
            exact absurd hx (List.nodup_cons.1 hnd).1
          · exact hvis x (List.mem_cons_of_mem n hx))
        (by
          intro x hx
          rw [List.erase_cons_head]
          exact htemp x (List.mem_cons_of_mem n hx))
        (List.nodup_cons.1 hnd).2
      simp only at hrest
      rw [hrest]
      rw [List.erase_cons_head]
      simp [List.append_assoc]

theorem topological_sort_no_deps {T : Type} [DecidableEq T] (objects : List T)
    (deps : T → List T) (hdeps : ∀ c ∈ objects, deps c = []) (hnd : objects.Nodup) :
    topological_sort objects deps = some objects := by
  unfold topological_sort
  rw [topo_no_deps deps objects (2 * objects.length + 1) ⟨[], [], []⟩
    hdeps (by omega) (by simp) (by simp) hnd]
  simp

/-! ## The schema layer (`cdb/schema.py`, `cdb/schemas/hash_db_schema.py`)

`Coin` and `BlockSpendInfo` are the dataclasses of `cdb/schema.py`; 32-byte
hashes are modelled as naturals.  Python `dict`s keyed by coin name are
modelled as association lists with Python's semantics: insertion of an
existing key updates it in place, insertion of a new key appends at the
end, so iteration order is insertion order.  SHA-256 is external, so the
pipeline is parameterized by a name function `nameFn : Coin → Nat`; the
iteration order of `set(confirms)` is implementation-defined (hash
randomization), so the pipeline is likewise parameterized by an
enumeration function `enumFn : List Coin → List Coin` standing for
`list(set(confirms))`. -/

structure Coin where
  parent_coin_name : Nat
  puzzle_hash : Nat
  amount : Nat
deriving DecidableEq

structure BlockSpendInfo where
  index : Nat
  timestamp : Nat
  spends : List Nat
  confirms : List Coin
deriving DecidableEq

def dget {α : Type} : List (Nat × α) → Nat → Option α
  | [], _ => none
  | p :: rest, k => if p.1 = k then some p.2 else dget rest k

def dinsert {α : Type} : List (Nat × α) → Nat → α → List (Nat × α)
  | [], k, v => [(k, v)]
  | p :: rest, k, v =>
    if p.1 = k then (k, v) :: rest else p :: dinsert rest k v

/-- `{_.name(): _ for _ in confirms}` (later duplicates win). -/
def coin_by_name_dict (nameFn : Coin → Nat) (confirms : List Coin) :
    List (Nat × Coin) :=
  confirms.foldl (fun acc c => dinsert acc (nameFn c) c) []

/-- The distinct raising sites of the ingest pipeline, by exception site:
`keyError` is `acc[h]` in `RowArrayDB.find_hashes`; `cycleError` is the
`ValueError("Cycle detected ...")` of `topological_sort`; `parentNotFound`
is the `ValueError("can't find coin id ...")` of `_store_block`;
`overflowError` is `int.to_bytes` on an out-of-range value; `indexError` is
`COINBASE_PREFIXES[i]` out of range; `noSuchTable` is sqlite3's
`OperationalError: no such table`; `assertionError` is the row-count
`assert` of `add_rows`. -/
inductive DBError where
  | keyError
  | cycleError
  | parentNotFound
  | overflowError
  | indexError
  | noSuchTable
  | assertionError
deriving DecidableEq

/-- A row of the sqlite `coin` table (`id` is `AUTOINCREMENT`, starting at
1; `amount` is stored as an 8-byte blob). -/
structure CoinRow where
  id : Nat
  parent : Int
  puzzle : Nat
  amount_blob : List Nat
  confirmed : Nat
  spent : Nat
deriving DecidableEq

/-- A row of the sqlite `block` table. -/
structure BlockRow where
  id : Nat
  timestamp : Nat
  spends_blob : List Nat
  confirms_blob : List Nat
deriving DecidableEq

/-- `BaseDBSchema` state.  `coin_lookup_table = none` records that the
schema's `__init__` creates only the `coin` and `block` tables: there is no
`CREATE TABLE coin_lookup` anywhere, so queries against it fail with
sqlite3's "no such table" error.  (The forest `RowArrayDB` plays the
coin-lookup role instead.) -/
structure DBState where
  coin_table : List CoinRow
  block_table : List BlockRow
  coin_lookup_table : Option (List HRow)
  row_array_db : RowArrayDB
  pending_blocks : List BlockSpendInfo
  pending_coin_count : Nat
deriving DecidableEq

def initial_db_state : DBState :=
  { coin_table := [], block_table := [], coin_lookup_table := none,
    row_array_db := { db_files := [], row_count := 0 },
    pending_blocks := [], pending_coin_count := 0 }

def cache_size : Nat := 50000

/-- The first loop of `_fetch_coin_indices_for_coin_names`: coinbase names
resolve through `as_coinbase_index`, other names through the unflushed
dict; unresolved names are collected in order. -/
def fetch_split (coin_names : List Nat) (unflushed : List (Nat × Nat)) :
    List (Nat × Int) × List Nat :=
  coin_names.foldl (fun acc coin_name =>
    match (if is_coinbase_name coin_name then as_coinbase_index coin_name
           else (dget unflushed coin_name).map (fun v => ((v : Nat) : Int))) with
    | none => (acc.1, acc.2 ++ [coin_name])
    | some v => (dinsert acc.1 coin_name v, acc.2)) ([], [])

/-- `_fetch_coin_indices_for_coin_names`: remaining names go to the forest
(`RowArrayDB.find_hashes`), whose failure on an unresolvable name is the
`KeyError`; found rows are folded into the dict (`d.update(d1)`). -/
def fetch_coin_indices_for_coin_names (db : RowArrayDB)
    (coin_names : List Nat) (unflushed : List (Nat × Nat)) :
    Except DBError (List (Nat × Int)) :=
  match forest_find_hashes db (fetch_split coin_names unflushed).2 with
  | none => .error .keyError
  | some found =>
      .ok (found.foldl (fun d p => dinsert d p.1 ((p.2 : Nat) : Int))
        (fetch_split coin_names unflushed).1)

/-- `_lookup_name_id_tuples_for_coin_names`: split parent names into those
present in the unflushed dict (as pairs) and the missing ones, in order. -/
def lookup_name_id_tuples (parent_names : List Nat)
    (unflushed : List (Nat × Nat)) : List (Nat × Nat) × List Nat :=
  parent_names.foldl (fun acc coin_name =>
    match dget unflushed coin_name with
    | none => (acc.1, acc.2 ++ [coin_name])
    | some v => (acc.1 ++ [(coin_name, v)], acc.2)) ([], [])

/-- The dependency function `_store_block` hands to `topological_sort`:
`[coin_by_name[_.parent_coin_name]] if _.parent_coin_name in coin_by_name
else []`. -/
def store_block_deps (nameFn : Coin → Nat) (confirms : List Coin) :
    Coin → List Coin :=
  fun c =>
    match dget (coin_by_name_dict nameFn confirms) c.parent_coin_name with
    | some p => [p]
    | none => []

/-- The insertion order `_store_block` chooses for a block's confirms:
`topological_sort(set(confirms), ...)`, with `enumFn` standing for the
set's iteration order; `none` models the cycle `ValueError`. -/
def sorted_confirms_for (nameFn : Coin → Nat) (enumFn : List Coin → List Coin)
    (block : BlockSpendInfo) : Option (List Coin) :=
  topological_sort (enumFn block.confirms)
    (store_block_deps nameFn block.confirms)

/-- The `for coin in sorted_confirms` loop of `_store_block`: resolve the
parent index (coinbase first, then `coin_ids_by_name`), emit the coin row
(`lastrowid` is the table length plus one), and record the new id in the
unflushed dict, the confirm-id list and `coin_ids_by_name`. -/
def insert_confirms (nameFn : Coin → Nat) (block_index : Nat) :
    List Coin → List CoinRow → List (Nat × Nat) → List Nat → List (Nat × Int) →
    Except DBError (List CoinRow × List (Nat × Nat) × List Nat × List (Nat × Int))
  | [], coin_table, unflushed, confirm_ids, coin_ids =>
    .ok (coin_table, unflushed, confirm_ids, coin_ids)
  | coin :: rest, coin_table, unflushed, confirm_ids, coin_ids =>
    match (match as_coinbase_index coin.parent_coin_name with
           | some v => some v
           | none => dget coin_ids coin.parent_coin_name) with
    | none => .error .parentNotFound
    | some parent_index =>
      if coin.amount < 2 ^ 64 then
        insert_confirms nameFn block_index rest
          (coin_table ++ [⟨coin_table.length + 1, parent_index,
            coin.puzzle_hash, natToBeBytes 8 coin.amount, block_index, 0⟩])
          (dinsert unflushed (nameFn coin) (coin_table.length + 1))
          (confirm_ids ++ [coin_table.length + 1])
          (dinsert coin_ids (nameFn coin)
            ((coin_table.length + 1 : Nat) : Int))
      else .error .overflowError

/-- `_store_block`.  The parent names of *all* confirms are resolved first
(unflushed dict, then coinbase / forest via
`_fetch_coin_indices_for_coin_names`) — before `topological_sort` runs;
then the confirms are inserted in topological order, the spends are
resolved and marked spent, and the block row is emitted with the two id
blobs. -/
def store_block (nameFn : Coin → Nat) (enumFn : List Coin → List Coin)
    (db : RowArrayDB) (block : BlockSpendInfo)
    (coin_table : List CoinRow) (block_table : List BlockRow)
    (unflushed : List (Nat × Nat)) :
    Except DBError (List CoinRow × List BlockRow × List (Nat × Nat)) :=
  match fetch_coin_indices_for_coin_names db
      (lookup_name_id_tuples (block.confirms.map (fun c => c.parent_coin_name))
        unflushed).2 unflushed with
  | .error e => .error e
  | .ok fetched =>
    match sorted_confirms_for nameFn enumFn block with
    | none => .error .cycleError
    | some sorted_confirms =>
      match insert_confirms nameFn block.index sorted_confirms coin_table
          unflushed []
          ((lookup_name_id_tuples
              (block.confirms.map (fun c => c.parent_coin_name))
              unflushed).1.foldl
            (fun d p => dinsert d p.1 ((p.2 : Nat) : Int)) fetched) with
      | .error e => .error e
      | .ok (coin_table2, unflushed2, confirm_ids, _) =>
        match fetch_coin_indices_for_coin_names db block.spends unflushed2 with
        | .error e => .error e
        | .ok spend_dict =>
          let spend_ids := spend_dict.map (fun p => p.2)
          let coin_table3 := spend_ids.foldl (fun tbl sid =>
            tbl.map (fun r =>
              if ((r.id : Nat) : Int) = sid then { r with spent := block.index }
              else r)) coin_table2
          match list_int_to_bytes spend_ids,
              list_int_to_bytes (confirm_ids.map (fun n => ((n : Nat) : Int))) with
          | some spends_blob, some confirms_blob =>
            .ok (coin_table3,
              block_table ++
                [⟨block.index, block.timestamp, spends_blob, confirms_blob⟩],
              unflushed2)
          | _, _ => .error .overflowError

/-- The `for block in self._pending_blocks` loop of `flush`. -/
def store_blocks_loop (nameFn : Coin → Nat) (enumFn : List Coin → List Coin)
    (db : RowArrayDB) :
    List BlockSpendInfo → List CoinRow → List BlockRow → List (Nat × Nat) →
    Except DBError (List CoinRow × List BlockRow × List (Nat × Nat))
  | [], coin_table, block_table, unflushed =>
    .ok (coin_table, block_table, unflushed)
  | b :: rest, coin_table, block_table, unflushed =>
    match store_block nameFn enumFn db b coin_table block_table unflushed with
    | .error e => .error e
    | .ok (ct2, bt2, u2) => store_blocks_loop nameFn enumFn db rest ct2 bt2 u2

/-- `flush`: `BEGIN TRANSACTION`, store every pending block with a fresh
unflushed dict, flush the dict into the forest (`add_rows`, whose failed
row-count assert is `assertionError`), clear the pending buffer, `commit`.
An error propagates before the `commit`, so `.error` leaves nothing
durable. -/
def flush (nameFn : Coin → Nat) (enumFn : List Coin → List Coin)
    (st : DBState) : Except DBError DBState :=
  match store_blocks_loop nameFn enumFn st.row_array_db st.pending_blocks
      st.coin_table st.block_table [] with
  | .error e => .error e
  | .ok (coin_table, block_table, unflushed) =>
    match add_rows st.row_array_db unflushed with
    | none => .error .assertionError
    | some db2 =>
      .ok { st with
        coin_table := coin_table
        block_table := block_table
        row_array_db := db2
        pending_blocks := []
        pending_coin_count := 0 }

/-- `accept_block`: buffer the block; flush once the buffered confirm count
exceeds the cache size. -/
def accept_block (nameFn : Coin → Nat) (enumFn : List Coin → List Coin)
    (st : DBState) (b : BlockSpendInfo) : Except DBError DBState :=
  let st2 : DBState :=
    { st with
      pending_blocks := st.pending_blocks ++ [b]
      pending_coin_count := st.pending_coin_count + b.confirms.length }
  if st2.pending_coin_count > cache_size then flush nameFn enumFn st2
  else .ok st2

/-- `cdb/cmds/load_blocks.py`: accept every block of the stream, then a
final `flush`. -/
def load_blocks (nameFn : Coin → Nat) (enumFn : List Coin → List Coin)
    (stream : List BlockSpendInfo) : Except DBError DBState :=
  match stream.foldlM (fun st b => accept_block nameFn enumFn st b)
      initial_db_state with
  | .error e => .error e
  | .ok st => flush nameFn enumFn st

/-! ## Reading back (`blocks`, `_coin_names_for_coin_indices`)

`_coin_names_for_coin_indices` first decodes the non-positive indices with
`bytes32_for_negative_coin_index` (loop over `coin_indices`), then runs
`SELECT id, hash FROM coin_lookup WHERE id IN (...)`.  The schema never
creates a `coin_lookup` table (`__init__` creates only `coin` and
`block`), which is recorded by `DBState.coin_lookup_table = none`; sqlite
answers the query with `OperationalError: no such table: coin_lookup`. -/

def coin_names_for_coin_indices (st : DBState) (coin_indices : List Int) :
    Except DBError (List Nat) :=
  match (coin_indices.filter (fun i => decide (i ≤ 0))).mapM
      (fun i => (bytes32_for_negative_coin_index i).map (fun n => (i, n))) with
  | none => .error .indexError
  | some neg_pairs =>
    match st.coin_lookup_table with
    | none => .error .noSuchTable
    | some rows =>
      let pos := coin_indices.filter (fun i => decide (0 < i))
      let lookup := neg_pairs ++
        (rows.filter (fun r => decide (((r.2 : Nat) : Int) ∈ pos))).map
          (fun r => (((r.2 : Nat) : Int), r.1))
      match coin_indices.mapM
          (fun i => (lookup.find? (fun p => p.1 == i)).map (fun p => p.2)) with
      | none => .error .keyError
      | some names => .ok names

structure CoinInfo where
  coin : Coin
  confirmed_index : Nat
  spent_index : Nat
deriving DecidableEq

/-- `_coin_infos_for_coin_indices`: select the coin rows, decode every
parent id to a name (through the broken `coin_lookup` query), rebuild the
`Coin`s and answer in query order. -/
def coin_infos_for_coin_indices (st : DBState) (coin_indices : List Int) :
    Except DBError (List CoinInfo) :=
  let rows := st.coin_table.filter
    (fun r => decide (((r.id : Nat) : Int) ∈ coin_indices))
  match coin_names_for_coin_indices st (rows.map (fun r => r.parent)) with
  | .error e => .error e
  | .ok parent_names =>
    let lookup := (rows.zip parent_names).map (fun rp =>
      (((rp.1.id : Nat) : Int),
        CoinInfo.mk ⟨rp.2, rp.1.puzzle, beNat rp.1.amount_blob⟩
          rp.1.confirmed rp.1.spent))
    match coin_indices.mapM
        (fun i => (lookup.find? (fun p => p.1 == i)).map (fun p => p.2)) with
    | none => .error .keyError
    | some infos => .ok infos

/-- `BaseDBSchema.blocks`: for every stored block row, decode the spend ids
to names and the confirm ids to coins. -/
def blocks_of (st : DBState) : Except DBError (List BlockSpendInfo) :=
  st.block_table.mapM (fun row =>
    match coin_names_for_coin_indices st (list_int_from_bytes row.spends_blob) with
    | .error e => .error e
    | .ok spends =>
      match coin_infos_for_coin_indices st
          (list_int_from_bytes row.confirms_blob) with
      | .error e => .error e
      | .ok infos =>
        .ok ⟨row.id, row.timestamp, spends, infos.map (fun ci => ci.coin)⟩)

def except_is_ok {ε α : Type} : Except ε α → Bool
  | .ok _ => true
  | .error _ => false

/-- A concrete well-formed one-block stream: one coin whose parent is a
valid coinbase name (first prefix, window zero), accepted and flushed
without error. -/
def nameFn0 : Coin → Nat := fun c => 2 ^ 70 + c.amount

def enumFn0 : List Coin → List Coin := fun l => l.dedup

def block0 : BlockSpendInfo :=
  { index := 1, timestamp := 1000, spends := [],
    confirms := [{ parent_coin_name := 0x3ff07eb358e8255a65c30a2dce0e5fbb * 2 ^ 128,
                   puzzle_hash := 77, amount := 250 }] }

def is_no_such_table_error {α : Type} : Except DBError α → Bool
  | .error .noSuchTable => true
  | _ => false

/-- **C1**: the dump/load round trip is broken in the code.  The concrete
stream `[block0]` (one block, one coinbase-parented coin, no spends) is
accepted and flushed without error, and exactly one block row is stored;
but enumerating the stored blocks (`BaseDBSchema.blocks`) fails with
sqlite3's "no such table" error, because `_coin_names_for_coin_indices`
queries the `coin_lookup` table, which `__init__` never creates (coin names
live in the `RowArrayDB` forest instead).  So printing the stored stream is
impossible: no output, let alone a sorted one semantically equal to the
input. -/
theorem C1_dump_load_round_trip_code_bug :
    except_is_ok (load_blocks nameFn0 enumFn0 [block0]) = true ∧
    (load_blocks nameFn0 enumFn0 [block0]).toOption.map
      (fun st => (st.block_table.length == 1,
        is_no_such_table_error (blocks_of st))) = some (true, true) :=
  ⟨by decide, by decide⟩

theorem dget_dinsert {α : Type} (d : List (Nat × α)) (k k' : Nat) (v : α) :
    dget (dinsert d k v) k' = if k' = k then some v else dget d k' := by
  induction d with
  | nil =>
    by_cases h : k' = k
    · subst h; simp [dinsert, dget]
    · simp [dinsert, dget, h, Ne.symm h]
  | cons p rest ih =>
    by_cases hp : p.1 = k
    · rw [show dinsert (p :: rest) k v = (k, v) :: rest by
        simp [dinsert, hp]]
      by_cases h : k' = k
      · subst h; simp [dget]
      · simp only [dget, if_neg h]
        rw [if_neg (fun hc : k = k' => h hc.symm)]
        rw [if_neg (fun hc : p.1 = k' => h (hc ▸ hp ▸ rfl))]
    · rw [show dinsert (p :: rest) k v = p :: dinsert rest k v by
        simp [dinsert, hp]]
      by_cases hk : p.1 = k'
      · have hne : ¬ k' = k := fun hc => hp (hk.trans hc)
        simp only [dget, if_pos hk, if_neg hne]
      · simp only [dget, if_neg hk, ih]

theorem dget_fold_dinsert_mem (nameFn : Coin → Nat) :
    ∀ (cs : List Coin) (d : List (Nat × Coin)) (k : Nat) (c : Coin),
      dget (cs.foldl (fun acc x => dinsert acc (nameFn x) x) d) k = some c →
      (c ∈ cs ∧ nameFn c = k) ∨ dget d k = some c := by
  intro cs
  induction cs with
  | nil => intro d k c h; exact Or.inr h
  | cons x rest ih =>
    intro d k c h
    simp only [List.foldl_cons] at h
    rcases ih _ k c h with ⟨hc, hn⟩ | hd
    · exact Or.inl ⟨List.mem_cons_of_mem x hc, hn⟩
    · rw [dget_dinsert] at hd
      by_cases hk : k = nameFn x
      · rw [if_pos hk] at hd
        have hx : x = c := Option.some.inj hd
        subst hx
        exact Or.inl ⟨List.mem_cons_self x rest, hk.symm⟩
      · rw [if_neg hk] at hd
        exact Or.inr hd

theorem dget_fold_dinsert_isSome (nameFn : Coin → Nat) :
    ∀ (cs : List Coin) (d : List (Nat × Coin)) (k : Nat),
      (dget d k).isSome = true →
      (dget (cs.foldl (fun acc x => dinsert acc (nameFn x) x) d) k).isSome
        = true := by
  intro cs
  induction cs with
  | nil => intro d k h; exact h
  | cons x rest ih =>
    intro d k h
    simp only [List.foldl_cons]
    refine ih _ k ?_
    rw [dget_dinsert]
    by_cases hk : k = nameFn x
    · rw [if_pos hk]; rfl
    · rw [if_neg hk]; exact h

theorem dget_fold_dinsert_mem_isSome (nameFn : Coin → Nat) :
    ∀ (cs : List Coin) (d : List (Nat × Coin)) (c : Coin), c ∈ cs →
      (dget (cs.foldl (fun acc x => dinsert acc (nameFn x) x) d) (nameFn c)).isSome
        = true := by
  intro cs
  induction cs with
  | nil => intro d c h; cases h
  | cons x rest ih =>
    intro d c h
    simp only [List.foldl_cons]
    rcases List.mem_cons.1 h with rfl | h
    · refine dget_fold_dinsert_isSome nameFn rest _ (nameFn c) ?_
      rw [dget_dinsert, if_pos rfl]
      rfl
    · exact ih _ c h

/-- With name-distinct confirms, `coin_by_name[name(p)] = p` for every
confirm `p`. -/
theorem coin_by_name_dget_eq (nameFn : Coin → Nat) (confirms : List Coin)
    (hinj : ∀ c1 ∈ confirms, ∀ c2 ∈ confirms, nameFn c1 = nameFn c2 → c1 = c2)
    (p : Coin) (hp : p ∈ confirms) :
    dget (coin_by_name_dict nameFn confirms) (nameFn p) = some p := by
  have hs := dget_fold_dinsert_mem_isSome nameFn confirms [] p hp
  unfold coin_by_name_dict
  cases hq : dget (confirms.foldl (fun acc x => dinsert acc (nameFn x) x) [])
      (nameFn p) with
  | none =>
    rw [hq] at hs
    cases hs
  | some c' =>
    rcases dget_fold_dinsert_mem nameFn confirms [] (nameFn p) c' hq
        with ⟨hc, hn⟩ | hd
    · rw [hinj c' hc p hp hn]
    · cases hd

/-- **C5**: topological correctness of the insertion order.  Whenever
`_store_block`'s `topological_sort` call succeeds (its output `l` is the
insertion order used for the block's confirms) and the block's confirms
have pairwise distinct names (SHA-256 collision freedom), every confirm `c`
whose `parent_coin_name` is the name of another confirm `p` of the same
block appears strictly after `p` in `l`. -/
theorem C5_topological_correctness (nameFn : Coin → Nat)
    (enumFn : List Coin → List Coin) (block : BlockSpendInfo) (l : List Coin)
    (hrun : sorted_confirms_for nameFn enumFn block = some l)
    (hinj : ∀ c1 ∈ block.confirms, ∀ c2 ∈ block.confirms,
      nameFn c1 = nameFn c2 → c1 = c2)
    (c p : Coin) (_hc : c ∈ block.confirms) (hp : p ∈ block.confirms)
    (hedge : c.parent_coin_name = nameFn p)
    (l₁ l₂ : List Coin) (hsplit : l = l₁ ++ c :: l₂) :
    p ∈ l₁ := by
  have hdep : p ∈ store_block_deps nameFn block.confirms c := by
    unfold store_block_deps
    rw [hedge, coin_by_name_dget_eq nameFn block.confirms hinj p hp]
    simp
  unfold sorted_confirms_for at hrun
  exact topological_sort_dep_before (enumFn block.confirms)
    (store_block_deps nameFn block.confirms) l hrun l₁ l₂ c hsplit p hdep

/-- A concrete block whose second-listed confirm is the parent of the
first-listed one (names are `2 ^ 70 + amount`: not coinbase-shaped, and
injective on these inputs). -/
def nameFnW : Coin → Nat := fun c => 2 ^ 70 + c.amount

def enumFnW : List Coin → List Coin := fun l => l.dedup

def pW : Coin := { parent_coin_name := 999, puzzle_hash := 5, amount := 10 }

def cW : Coin := { parent_coin_name := 2 ^ 70 + 10, puzzle_hash := 6, amount := 20 }

def blockW : BlockSpendInfo :=
  { index := 2, timestamp := 0, spends := [], confirms := [cW, pW] }

theorem C5_topological_correctness_witness :
    sorted_confirms_for nameFnW enumFnW blockW = some [pW, cW] ∧ pW ∈ [pW] :=
  ⟨by decide,
    C5_topological_correctness nameFnW enumFnW blockW [pW, cW] (by decide)
      (by decide) cW pW (by decide) (by decide) (by decide) [pW] [] rfl⟩

theorem store_block_ok_sorted (nameFn : Coin → Nat)
    (enumFn : List Coin → List Coin) (db : RowArrayDB) (block : BlockSpendInfo)
    (ct : List CoinRow) (bt : List BlockRow) (u : List (Nat × Nat))
    (r : List CoinRow × List BlockRow × List (Nat × Nat))
    (h : store_block nameFn enumFn db block ct bt u = .ok r) :
    ∃ l, sorted_confirms_for nameFn enumFn block = some l := by
  unfold store_block at h
  cases hf : fetch_coin_indices_for_coin_names db
      (lookup_name_id_tuples
        (block.confirms.map (fun c => c.parent_coin_name)) u).2 u with
  | error e => rw [hf] at h; cases h
  | ok fetched =>
    rw [hf] at h
    dsimp only at h
    cases hs : sorted_confirms_for nameFn enumFn block with
    | none => rw [hs] at h; cases h
    | some l => exact ⟨l, rfl⟩

theorem store_blocks_loop_ok_block (nameFn : Coin → Nat)
    (enumFn : List Coin → List Coin) (db : RowArrayDB) :
    ∀ (pending : List BlockSpendInfo) (ct : List CoinRow) (bt : List BlockRow)
      (u : List (Nat × Nat)) (r : List CoinRow × List BlockRow × List (Nat × Nat)),
      store_blocks_loop nameFn enumFn db pending ct bt u = .ok r →
      ∀ b ∈ pending, ∃ ct' bt' u' r',
        store_block nameFn enumFn db b ct' bt' u' = .ok r' := by
  intro pending
  induction pending with
  | nil => intro ct bt u r _ b hb; cases hb
  | cons x rest ih =>
    intro ct bt u r h b hb
    rw [store_blocks_loop] at h
    cases hx : store_block nameFn enumFn db x ct bt u with
    | error e => rw [hx] at h; cases h
    | ok r2 =>
      rw [hx] at h
      dsimp only at h
      rcases List.mem_cons.1 hb with rfl | hb
      · exact ⟨ct, bt, u, r2, hx⟩
      · exact ih r2.1 r2.2.1 r2.2.2 r h b hb

/-- **C6 (amended)**: an intra-block parent cycle among a buffered block's
confirms makes `flush` fail — every cycle member's own parent resolution or
the topological sort must raise, and the exception propagates before the
`commit`, so nothing from the flush becomes durable.  (As the
counterexample shows, the error raised in the generic case is the parent
lookup `KeyError`, not the cycle `ValueError`: `_store_block` resolves all
parent names *before* calling `topological_sort`.) -/
theorem C6_cycle_flush_fails (nameFn : Coin → Nat)
    (enumFn : List Coin → List Coin) (st : DBState) (b : BlockSpendInfo)
    (hb : b ∈ st.pending_blocks) (c : Coin) (hc : c ∈ enumFn b.confirms)
    (hcyc : Relation.TransGen
      (fun a b' => a ∈ store_block_deps nameFn b.confirms b') c c) :
    ∃ e, flush nameFn enumFn st = .error e := by
  cases hfl : flush nameFn enumFn st with
  | error e => exact ⟨e, rfl⟩
  | ok st' =>
    exfalso
    unfold flush at hfl
    cases hloop : store_blocks_loop nameFn enumFn st.row_array_db
        st.pending_blocks st.coin_table st.block_table [] with
    | error e => rw [hloop] at hfl; cases hfl
    | ok r =>
      obtain ⟨ct', bt', u', r', hsb⟩ :=
        store_blocks_loop_ok_block nameFn enumFn st.row_array_db
          st.pending_blocks st.coin_table st.block_table [] r hloop b hb
      obtain ⟨l, hl⟩ := store_block_ok_sorted nameFn enumFn st.row_array_db b
        ct' bt' u' r' hsb
      unfold sorted_confirms_for at hl
      exact topological_sort_acyclic (enumFn b.confirms)
        (store_block_deps nameFn b.confirms) l hl c hc hcyc

instance {ε α : Type} [DecidableEq ε] [DecidableEq α] :
    DecidableEq (Except ε α) := fun a b =>
  match a, b with
  | .error x, .error y =>
    if h : x = y then .isTrue (by rw [h])
    else .isFalse (fun hc => h (Except.error.inj hc))
  | .error _, .ok _ => .isFalse (fun hc => Except.noConfusion hc)
  | .ok _, .error _ => .isFalse (fun hc => Except.noConfusion hc)
  | .ok x, .ok y =>
    if h : x = y then .isTrue (by rw [h])
    else .isFalse (fun hc => h (Except.ok.inj hc))

/-- Two coins, each naming the other as parent (names `2 ^ 70 + amount`:
distinct and not coinbase-shaped). -/
def nameFnX : Coin → Nat := fun c => 2 ^ 70 + c.amount

def enumFnX : List Coin → List Coin := fun l => l.dedup

def c1X : Coin := { parent_coin_name := 2 ^ 70 + 2, puzzle_hash := 1, amount := 1 }

def c2X : Coin := { parent_coin_name := 2 ^ 70 + 1, puzzle_hash := 1, amount := 2 }

def blockX : BlockSpendInfo :=
  { index := 1, timestamp := 5, spends := [], confirms := [c1X, c2X] }

def stX : DBState :=
  { initial_db_state with pending_blocks := [blockX], pending_coin_count := 2 }

/-- **C6 counterexample**: for a buffered block whose two confirms form a
parent 2-cycle, `flush` does fail and commits nothing, but the error is the
parent-lookup `KeyError` raised inside `RowArrayDB.find_hashes` while
`_store_block` resolves parent names — *before* `topological_sort` ever
runs — not the advertised cycle error. -/
theorem C6_cycle_error_counterexample :
    c2X ∈ store_block_deps nameFnX blockX.confirms c1X ∧
    c1X ∈ store_block_deps nameFnX blockX.confirms c2X ∧
    flush nameFnX enumFnX stX = .error .keyError ∧
    DBError.keyError ≠ DBError.cycleError :=
  ⟨by decide, by decide, by decide, by decide⟩

theorem C6_cycle_flush_fails_witness :
    ∃ e, flush nameFnX enumFnX stX = .error e :=
  C6_cycle_flush_fails nameFnX enumFnX stX blockX (by decide) c1X (by decide)
    (Relation.TransGen.tail
      (Relation.TransGen.single
        (show c1X ∈ store_block_deps nameFnX blockX.confirms c2X by decide))
      (show c2X ∈ store_block_deps nameFnX blockX.confirms c1X by decide))

/-- Two confirms with no intra-block parent relation; the name of `aY` is
smaller than the name of `bY`. -/
def nameFnY : Coin → Nat := fun c => 2 ^ 70 + c.amount

def aY : Coin := { parent_coin_name := 901, puzzle_hash := 3, amount := 1 }

def bY : Coin := { parent_coin_name := 902, puzzle_hash := 3, amount := 2 }

def blockY : BlockSpendInfo :=
  { index := 3, timestamp := 7, spends := [], confirms := [aY, bY] }

def enumFnA : List Coin → List Coin := fun l => l.dedup

def enumFnB : List Coin → List Coin := fun l => l.dedup.reverse

/-- **C9 counterexample**: the insertion order is *not* name-tie-broken or
reproducible.  `aY` and `bY` are unordered by the intra-block parent
relation and `name(aY) < name(bY)`, yet the order `_store_block` obtains is
exactly the iteration order of `set(confirms)`: two legitimate set
enumerations (both duplicate-free with the same members) yield two
different insertion orders, and in the second the coin with the *larger*
name comes first. -/
theorem C9_tie_break_counterexample :
    store_block_deps nameFnY blockY.confirms aY = [] ∧
    store_block_deps nameFnY blockY.confirms bY = [] ∧
    nameFnY aY < nameFnY bY ∧
    enumFnA blockY.confirms = [aY, bY] ∧
    enumFnB blockY.confirms = [bY, aY] ∧
    (enumFnA blockY.confirms).Nodup ∧
    (enumFnB blockY.confirms).Nodup ∧
    sorted_confirms_for nameFnY enumFnA blockY = some [aY, bY] ∧
    sorted_confirms_for nameFnY enumFnB blockY = some [bY, aY] ∧
    [aY, bY] ≠ ([bY, aY] : List Coin) :=
  ⟨by decide, by decide, by decide, by decide, by decide, by decide,
    by decide, by decide, by decide, by decide⟩

/-- **C9 (amended)**: there is no deterministic tie-break at all.  The
insertion order is the DFS post-order of `topological_sort` seeded by the
iteration order of `set(confirms)`; in particular, whenever the block has
no intra-block parent edges among the enumerated confirms, the insertion
order *is* the set-iteration order, whatever it happens to be — so the
order varies with Python's hash randomization instead of being broken by
coin name. -/
theorem C9_order_is_set_iteration_order (nameFn : Coin → Nat)
    (enumFn : List Coin → List Coin) (block : BlockSpendInfo)
    (hnd : (enumFn block.confirms).Nodup)
    (hnodeps : ∀ c ∈ enumFn block.confirms,
      store_block_deps nameFn block.confirms c = []) :
    sorted_confirms_for nameFn enumFn block = some (enumFn block.confirms) := by
  unfold sorted_confirms_for
  exact topological_sort_no_deps (enumFn block.confirms)
    (store_block_deps nameFn block.confirms) hnodeps hnd

theorem C9_order_is_set_iteration_order_witness :
    sorted_confirms_for nameFnY enumFnB blockY = some (enumFnB blockY.confirms) :=
  C9_order_is_set_iteration_order nameFnY enumFnB blockY (by decide) (by decide)
